import Mathlib

/-!
Shallow embedding of the Bruce task store (`src/task_manager.py` and the
context-cleanup part of `cli/hdw-task.py`).

YAML scalar/collection values are modelled by `Val`; Python dicts loaded from
YAML are modelled as insertion-ordered association lists (`PyDict`), with
`aget`/`aset`/`pyUpdate` mirroring Python dict lookup, item assignment and
`dict.update`.  Files on disk are modelled by their parsed contents: the legacy
`tasks.yaml` is an optional task list, each `phases/phase*_*.yml` file is a
`PhaseFile` (filename, `phase` mapping, `tasks` list).  Machine floats enter
only in the progress percentage; there they are modelled exactly as IEEE-754
binary64 dyadic rationals with round-to-nearest-even (`roundNatFrac`).
Operations that can raise a Python exception return `Option`, with `none`
standing for the raised exception.
-/

/-- YAML/Python values as far as the task manager manipulates them.
Booleans and floats do not occur in the claims and are left out of the
universe of the embedding. -/
inductive Val where
  | str : String → Val
  | int : Int → Val
  | list : List Val → Val
  | dict : List (String × Val) → Val
  | none : Val

/-- A Python dict loaded from a YAML mapping: insertion-ordered key/value
pairs. -/
abbrev PyDict := List (String × Val)

/-- Python `==` on dict keys as exercised by the source: string, integer and
`None` scalars.  Composite values are unhashable in Python and would raise
before ever being compared as keys; the model compares them unequal. -/
def keyEq : Val → Val → Bool
  | Val.str a, Val.str b => a == b
  | Val.int a, Val.int b => a == b
  | Val.none, Val.none => true
  | _, _ => false

/-- Python `d[k]` / `d.get(k)`: first binding of the key. -/
def aget : PyDict → String → Option Val
  | [], _ => Option.none
  | (k, v) :: r, key => if k = key then some v else aget r key

/-- Python `k in d`. -/
def hasKey (t : PyDict) (k : String) : Bool :=
  (aget t k).isSome

/-- Python `d[k] = v`: overwrite in place if the key is present, else append
at the end (insertion order). -/
def aset : PyDict → String → Val → PyDict
  | [], k, v => [(k, v)]
  | (k0, v0) :: r, k, v =>
    if k0 = k then (k0, v) :: r else (k0, v0) :: aset r k v

/-- Python `d.update(u)`: fold the updates over the dict in their order. -/
def pyUpdate (t : PyDict) (u : PyDict) : PyDict :=
  u.foldl (fun acc kv => aset acc kv.1 kv.2) t

/-- Python dict comprehension dropping the listed keys
(`\x7bk: v for k, v in d.items() if k not in ks\x7d`). -/
def stripKeys (ks : List String) (t : PyDict) : PyDict :=
  t.filter (fun kv => !(ks.contains kv.1))

/-- Python truthiness of an optional value (`if task.get("phase_file"):`). -/
def truthy : Option Val → Bool
  | Option.none => false
  | some (Val.str s) => !(s.isEmpty)
  | some (Val.int n) => n != 0
  | some (Val.list l) => !(l.isEmpty)
  | some (Val.dict d) => !(d.isEmpty)
  | some Val.none => false

/-- Python `str()` on a value, as used in the f-string building the
phase-scoped context directory name.  Exact for strings, integers and `None`;
the `repr`-based rendering of lists and dicts is abstracted to a placeholder
(no claim evaluates it). -/
def pyStr : Val → String
  | Val.str s => s
  | Val.int n => toString n
  | Val.none => "None"
  | Val.list _ => "[...]"
  | Val.dict _ => "\x7b...\x7d"

/-- One `phases/phase*_*.yml` file, parsed: its filename, its top-level
`phase` mapping and its top-level `tasks` list. -/
structure PhaseFile where
  name : String
  info : PyDict
  tasks : List PyDict

/-- The on-disk state the task manager reads and writes: the parsed legacy
`tasks.yaml` task list (`Option.none` when the file is absent) and the parsed
phase files in the phases directory. -/
structure FS where
  legacy : Option (List PyDict)
  phases : List PhaseFile

/-- Insert a phase file into a name-sorted list. -/
def insertByName (p : PhaseFile) : List PhaseFile → List PhaseFile
  | [] => [p]
  | q :: qs => if p.name ≤ q.name then p :: q :: qs else q :: insertByName p qs

/-- Filename-sorted phase files, as produced by
`sorted(self.phases_dir.glob("phase*_*.yml"))`. -/
def sortPhases : List PhaseFile → List PhaseFile
  | [] => []
  | p :: ps => insertByName p (sortPhases ps)

/-- Legacy tagging in `load_tasks`:
`if "phase" not in task: task["phase"] = 0`. -/
def tagLegacy (t : PyDict) : PyDict :=
  if hasKey t "phase" then t else aset t "phase" (Val.int 0)

/-- `phase_info.get("id", "unknown")` for a phase file. -/
def phaseIdOf (pf : PhaseFile) : Val :=
  (aget pf.info "id").getD (Val.str "unknown")

/-- `phase_info.get("name", "Unknown Phase")` for a phase file. -/
def phaseNameOf (pf : PhaseFile) : Val :=
  (aget pf.info "name").getD (Val.str "Unknown Phase")

/-- Stamping done by `load_tasks` on each task of a phase file:
`task["phase"] = phase_id`, `task["phase_name"] = phase_name`,
`task["phase_file"] = phase_file.name`. -/
def stampTask (pf : PhaseFile) (t : PyDict) : PyDict :=
  aset (aset (aset t "phase" (phaseIdOf pf)) "phase_name" (phaseNameOf pf))
    "phase_file" (Val.str pf.name)

/-- The phase-metadata record `load_tasks` stores under
`all_tasks["phases"][phase_id]`. -/
structure PMeta where
  pname : Val
  description : Val
  file : String
  task_count : Nat

/-- Python dict assignment keyed by a `Val`
(`all_tasks["phases"][phase_id] = ...`). -/
def msets : List (Val × PMeta) → Val → PMeta → List (Val × PMeta)
  | [], k, v => [(k, v)]
  | (k0, v0) :: r, k, v =>
    if keyEq k0 k then (k0, v) :: r else (k0, v0) :: msets r k v

/-- Metadata of one phase file. -/
def metaOf (pf : PhaseFile) : PMeta :=
  { pname := phaseNameOf pf
    description := (aget pf.info "description").getD (Val.str "")
    file := pf.name
    task_count := pf.tasks.length }

/-- Result of `load_tasks()`: the merged task list and the phase-metadata
table (in dict insertion order). -/
structure LoadResult where
  tasks : List PyDict
  phases : List (Val × PMeta)

/-- Fold of the phase-file loop of `load_tasks` over the sorted files:
extend the task list with the stamped tasks, store the metadata record. -/
def loadPhaseStep (acc : List PyDict × List (Val × PMeta)) (pf : PhaseFile) :
    List PyDict × List (Val × PMeta) :=
  (acc.1 ++ pf.tasks.map (stampTask pf), msets acc.2 (phaseIdOf pf) (metaOf pf))

/-- `TaskManager.load_tasks()`: legacy tasks (tagged with phase 0 when
untagged) followed by the stamped tasks of every phase file in
filename-sorted order, plus the phase-metadata table. -/
def loadTasks (fs : FS) : LoadResult :=
  let legacyTasks := (fs.legacy.getD []).map tagLegacy
  let folded := (sortPhases fs.phases).foldl loadPhaseStep ([], [])
  { tasks := legacyTasks ++ folded.1, phases := folded.2 }

/-- The merged-view lookup loop of `save_task_updates` / `cmd_start` /
`cmd_commit_enhanced` (`for task in ...: if task["id"] == task_id`).
`none` models the `KeyError` raised when a record before the match has no
`id` key; `some none` means the loop ran out without a match. -/
def findTaskE (tid : String) : List PyDict → Option (Option PyDict)
  | [] => some Option.none
  | t :: ts =>
    match aget t "id" with
    | Option.none => Option.none
    | some v => if keyEq v (Val.str tid) then some (some t) else findTaskE tid ts

/-- The in-file update loop of `_update_phase_file` / `_update_legacy_tasks`:
replace the first record whose `id` equals the task id, leave the rest; an
absent id is a no-op, a record without an `id` key before the match raises. -/
def replaceInTasks (tid : String) (clean : PyDict) : List PyDict → Option (List PyDict)
  | [] => some []
  | t :: ts =>
    match aget t "id" with
    | Option.none => Option.none
    | some v =>
      if keyEq v (Val.str tid) then some (clean :: ts)
      else (replaceInTasks tid clean ts).map (t :: ·)

/-- `TaskManager._update_phase_file`: re-read the named phase file, replace
the task, write the file back.  Opening a name that is not on disk raises
(`none`). -/
def updatePhaseFile (fs : FS) (s tid : String) (clean : PyDict) : Option FS :=
  match fs.phases.find? (fun q => q.name == s) with
  | Option.none => Option.none
  | some pf =>
    (replaceInTasks tid clean pf.tasks).map (fun ts =>
      { fs with phases :=
          fs.phases.map (fun q => if q.name == s then { q with tasks := ts } else q) })

/-- `TaskManager._update_legacy_tasks`: re-read `tasks.yaml`, replace the
task, write the file back.  A missing legacy file raises on open (`none`). -/
def updateLegacy (fs : FS) (tid : String) (clean : PyDict) : Option FS :=
  match fs.legacy with
  | Option.none => Option.none
  | some l => (replaceInTasks tid clean l).map (fun l2 => { fs with legacy := some l2 })

/-- `TaskManager.save_task_updates`: load the merged view, find the task by
id (silent no-op when absent), merge the updates into it, then rewrite the
owning file — the phase file named by the merged record's truthy
`phase_file` entry (stripping `phase`/`phase_name`/`phase_file`), or the
legacy file (stripping `phase_name`/`phase_file`). -/
def saveTaskUpdates (fs : FS) (tid : String) (u : PyDict) : Option FS :=
  match findTaskE tid (loadTasks fs).tasks with
  | Option.none => Option.none
  | some Option.none => some fs
  | some (some t) =>
    let merged := pyUpdate t u
    if truthy (aget merged "phase_file") then
      match aget merged "phase_file" with
      | some (Val.str s) =>
        updatePhaseFile fs s tid (stripKeys ["phase", "phase_name", "phase_file"] merged)
      | _ => Option.none
    else updateLegacy fs tid (stripKeys ["phase_name", "phase_file"] merged)

/-- Floor of the base-2 logarithm of the positive fraction `num / den`,
computed by fueled scaling of the fraction into the interval [1, 2); fuel 400
is exact for every magnitude the percentage computation can produce. -/
def log2fuelN : Nat → ℕ → ℕ → ℤ
  | 0, _, _ => 0
  | fuel + 1, num, den =>
    if num < den then log2fuelN fuel (num * 2) den - 1
    else if 2 * den ≤ num then log2fuelN fuel num (den * 2) + 1
    else 0

/-- Round the nonnegative fraction `num / den` to the nearest integer, ties
to even (the IEEE-754 default rounding). -/
def roundHalfEvenN (num den : ℕ) : ℕ :=
  let q := num / den
  let r := num % den
  if 2 * r < den then q
  else if den < 2 * r then q + 1
  else if q % 2 = 0 then q else q + 1

/-- Round the positive fraction `num / den` to the nearest IEEE-754 binary64
double, returned exactly as a dyadic pair `(n, e)` of value `n * 2 ^ e`:
the fraction is scaled into [2^52, 2^53) and its 53-bit significand rounded
to nearest, ties to even.  Overflow and subnormals cannot occur at the
magnitudes the percentage computation produces and are not modelled. -/
def roundNatFrac (num den : ℕ) : ℕ × ℤ :=
  let e : ℤ := log2fuelN 400 num den - 52
  (roundHalfEvenN (num * 2 ^ (-e).toNat) (den * 2 ^ e.toNat), e)

/-- `int((completed / total) * 100)` evaluated exactly as CPython does on
ints: a correctly rounded binary64 division, a correctly rounded binary64
product with `100.0`, then `int()` truncation toward zero.  Fixed at 0
outside `0 < c` and `0 < t`; `get_phase_progress` only applies it with a
positive total and nonnegative completed count, and `c = 0` genuinely
yields 0. -/
def pyPctInt (c t : ℤ) : ℤ :=
  if 0 < c ∧ 0 < t then
    let d1 := roundNatFrac c.toNat t.toNat
    let d2 := roundNatFrac (d1.1 * 100 * 2 ^ d1.2.toNat) (2 ^ (-d1.2).toNat)
    ((d2.1 * 2 ^ d2.2.toNat) / 2 ^ (-d2.2).toNat : ℕ)
  else 0

/-- One entry of the `phase_progress` dict.  The Python dict holds the keys
`name`, `total`, `completed`, `in_progress`, `pending`, `blocked` during
counting; `percentage` is only assigned in the final pass, and the counting
step below tests membership against the literal Python key set, so the
always-present Lean field is invisible to it. -/
structure Prog where
  name : Val
  total : Int
  completed : Int
  in_progress : Int
  pending : Int
  blocked : Int
  percentage : Int

/-- A fresh progress entry with the given `name` value and zeroed counters. -/
def initEntry (nm : Val) : Prog :=
  { name := nm, total := 0, completed := 0, in_progress := 0, pending := 0
    blocked := 0, percentage := 0 }

/-- The per-task body of the counting loop of `get_phase_progress`, acting on
the entry of the task's phase: `total` is incremented unconditionally, then
`if status in phase_progress[phase]: phase_progress[phase][status] += 1`
increments whichever dict entry carries the status as key — including the
bookkeeping keys `total` (incremented a second time) and `name` (an integer
increment that raises `TypeError` on the usual string name, `none`).  An
unhashable status raises in the membership test. -/
def entryStep (status : Val) (e : Prog) : Option Prog :=
  let e1 : Prog := { e with total := e.total + 1 }
  match status with
  | Val.str s =>
    if s = "name" then
      match e1.name with
      | Val.int n => some { e1 with name := Val.int (n + 1) }
      | _ => Option.none
    else if s = "total" then some { e1 with total := e1.total + 1 }
    else if s = "completed" then some { e1 with completed := e1.completed + 1 }
    else if s = "in_progress" then some { e1 with in_progress := e1.in_progress + 1 }
    else if s = "pending" then some { e1 with pending := e1.pending + 1 }
    else if s = "blocked" then some { e1 with blocked := e1.blocked + 1 }
    else some e1
  | Val.int _ => some e1
  | Val.none => some e1
  | Val.list _ => Option.none
  | Val.dict _ => Option.none

/-- Lookup in the `phase_progress` dict (keyed by the phase id value). -/
def getEntry : List (Val × Prog) → Val → Option Prog
  | [], _ => Option.none
  | (k, e) :: r, key => if keyEq k key then some e else getEntry r key

/-- Assignment into the `phase_progress` dict. -/
def setEntry : List (Val × Prog) → Val → Prog → List (Val × Prog)
  | [], k, e => [(k, e)]
  | (k0, e0) :: r, k, e =>
    if keyEq k0 k then (k0, e) :: r else (k0, e0) :: setEntry r k e

/-- `task.get("status", "pending")`. -/
def statusOf (t : PyDict) : Val :=
  (aget t "status").getD (Val.str "pending")

/-- The on-demand entry creation of the counting loop:
`if phase not in phase_progress: phase_progress[phase] = \x7b..."Legacy Tasks"...\x7d`. -/
def ensureEntry (st : List (Val × Prog)) (ph : Val) : List (Val × Prog) :=
  if (getEntry st ph).isSome then st else st ++ [(ph, initEntry (Val.str "Legacy Tasks"))]

/-- One task of the counting loop of `get_phase_progress`: group under
`task.get("phase", 0)` (creating an on-demand `Legacy Tasks` entry), then
apply `entryStep` with `task.get("status", "pending")`.  An unhashable phase
value raises in the membership test. -/
def stepTask (st : List (Val × Prog)) (t : PyDict) : Option (List (Val × Prog)) :=
  match (aget t "phase").getD (Val.int 0) with
  | Val.list _ => Option.none
  | Val.dict _ => Option.none
  | ph =>
    match getEntry (ensureEntry st ph) ph with
    | some e => (entryStep (statusOf t) e).map (setEntry (ensureEntry st ph) ph)
    | Option.none => Option.none

/-- The counting loop of `get_phase_progress` over all merged tasks. -/
def countTasks : List (Val × Prog) → List PyDict → Option (List (Val × Prog))
  | st, [] => some st
  | st, t :: ts =>
    match stepTask st t with
    | Option.none => Option.none
    | some st1 => countTasks st1 ts

/-- Initialisation of `phase_progress` from the phase-metadata table. -/
def initProgress (ms : List (Val × PMeta)) : List (Val × Prog) :=
  ms.map (fun km => (km.1, initEntry km.2.pname))

/-- The final pass of `get_phase_progress`:
`percentage = int((completed / total) * 100)` when `total > 0`, else 0. -/
def pctPass (st : List (Val × Prog)) : List (Val × Prog) :=
  st.map (fun ke =>
    (ke.1, { ke.2 with percentage :=
      if 0 < ke.2.total then pyPctInt ke.2.completed ke.2.total else 0 }))

/-- `TaskManager.get_phase_progress()`: initialise one entry per known phase,
count every merged task into its phase's entry, then fill in the
percentages.  `none` models a raised exception. -/
def getPhaseProgress (fs : FS) : Option (List (Val × Prog)) :=
  (countTasks (initProgress (loadTasks fs).phases) (loadTasks fs).tasks).map pctPass

/-- Whitespace as stripped by `str.strip()` (the characters occurring in the
repository's files). -/
def isWS (c : Char) : Bool :=
  c == ' ' || c == '\t' || c == '\n' || c == '\r'

/-- `line.strip() == ''`. -/
def blankLine (line : List Char) : Bool :=
  line.all isWS

/-- Python `str.startswith`. -/
def listPrefixOf : List Char → List Char → Bool
  | [], _ => true
  | _ :: _, [] => false
  | a :: ps, b :: ss => a == b && listPrefixOf ps ss

/-- Python `sub in s` substring containment. -/
def listInfixOf (p : List Char) : List Char → Bool
  | [] => listPrefixOf p []
  | b :: ss => listPrefixOf p (b :: ss) || listInfixOf p ss

/-- Python `s.split(c)`. -/
def splitOnChar (c : Char) : List Char → List (List Char)
  | [] => [[]]
  | a :: r =>
    match splitOnChar c r with
    | [] => [[]]
    | g :: gs => if a == c then [] :: g :: gs else (a :: g) :: gs

/-- Python `'\n'.join(...)`. -/
def joinLines : List (List Char) → List Char
  | [] => []
  | [l] => l
  | l :: ls => l ++ '\n' :: joinLines ls

/-- The match test of the section-extraction loop of `get_context`:
`f"def {section}" in line or f"class {section}" in line`. -/
def matchesSec (sec line : List Char) : Bool :=
  listInfixOf ("def ".toList ++ sec) line || listInfixOf ("class ".toList ++ sec) line

/-- `line.startswith('def ') or line.startswith('class ')`. -/
def lineStartsDef (line : List Char) : Bool :=
  listPrefixOf "def ".toList line || listPrefixOf "class ".toList line

/-- The section-extraction loop of `get_context`, verbatim: a line containing
the section definition turns collection on; afterwards a line that starts a
top-level `def `/`class ` or is blank enters the `elif`, where only a
non-blank line breaks (blank lines are appended and collection continues);
every line seen while collection is on is appended. -/
def sectionLoop (sec : List Char) : Bool → List (List Char) → List (List Char)
  | _, [] => []
  | inSec, l :: ls =>
    if matchesSec sec l then l :: sectionLoop sec true ls
    else if inSec && (lineStartsDef l || blankLine l) then
      if !(blankLine l) then [] else l :: sectionLoop sec true ls
    else if inSec then l :: sectionLoop sec true ls
    else sectionLoop sec false ls

/-- Section extraction of `get_context`: run the loop over the file's lines
and fall back to the whole content when nothing was collected. -/
def extractSection (sec content : List Char) : List Char :=
  let sc := sectionLoop sec false (splitOnChar '\n' content)
  if sc.isEmpty then content else joinLines sc

/-- Existence-checked read of an abstract project file system mapping
root-relative path strings to contents. -/
def fileLookup (files : List (String × String)) (p : String) : Option String :=
  (files.find? (fun kv => kv.1 == p)).map (fun kv => kv.2)

/-- The location search of `get_context`: project root, `docs/`, `src/`,
then the path taken as absolute (which coincides with the root-relative key
in this model); the first existing file wins.  The raw reference — with any
`#section` suffix still attached — is what is looked up. -/
def resolveLocation (files : List (String × String)) (path : String) : Option String :=
  match fileLookup files path with
  | some c => some c
  | Option.none =>
    match fileLookup files ("docs/" ++ path) with
    | some c => some c
    | Option.none =>
      match fileLookup files ("src/" ++ path) with
      | some c => some c
      | Option.none => fileLookup files path

/-- One entry of the `get_context` output for one reference: the
`=== path ===` block with the (possibly section-extracted) content, or the
`(NOT FOUND)` marker when no candidate location exists. -/
def getContextEntry (files : List (String × String)) (path : String) : String :=
  match resolveLocation files path with
  | Option.none => "=== " ++ path ++ " (NOT FOUND) ===\n"
  | some content =>
    let content2 : List Char :=
      if path.toList.contains '#' then
        extractSection (((splitOnChar '#' path.toList).drop 1).headD []) content.toList
      else content.toList
    "=== " ++ path ++ " ===\n" ++ String.mk content2 ++ "\n"

/-- `TaskManager.get_context`: the entries for all references joined with
newlines. -/
def getContext (files : List (String × String)) (paths : List String) : String :=
  String.mk (joinLines (paths.map (fun p => (getContextEntry files p).toList)))

/-- The context-file side of the world: the subdirectories of `contexts/`
with the context documents they hold, and the dot-prefixed legacy context
files at the project root.  Only existence of the documents is tracked; their
markdown body is not part of any claim. -/
structure CtxFS where
  dirs : List (String × List String)
  rootFiles : List String

/-- Does the `contexts/` tree contain the named subdirectory? -/
def dirsHasDir : List (String × List String) → String → Bool
  | [], _ => false
  | (d0, _) :: rest, d => d0 = d || dirsHasDir rest d

/-- Add a document to the named subdirectory (set semantics: overwriting an
existing document leaves the name set unchanged). -/
def dirsWrite : List (String × List String) → String → String → List (String × List String)
  | [], _, _ => []
  | (d0, fl) :: rest, d, f =>
    if d0 = d then (d0, if fl.contains f then fl else fl ++ [f]) :: dirsWrite rest d f
    else (d0, fl) :: dirsWrite rest d f

/-- Does the named subdirectory contain the named document? -/
def dirsFileExists : List (String × List String) → String → String → Bool
  | [], _, _ => false
  | (d0, fl) :: rest, d, f => if d0 = d then fl.contains f else dirsFileExists rest d f

/-- `phase_dir.mkdir(exist_ok=True)`. -/
def ctxMkdir (ctx : CtxFS) (d : String) : CtxFS :=
  if dirsHasDir ctx.dirs d then ctx
  else { ctx with dirs := ctx.dirs ++ [(d, [])] }

/-- Creating (or overwriting) a context document in a `contexts/`
subdirectory. -/
def ctxWrite (ctx : CtxFS) (d f : String) : CtxFS :=
  { ctx with dirs := dirsWrite ctx.dirs d f }

/-- Existence check for a context document. -/
def ctxFileExists (ctx : CtxFS) (d f : String) : Bool :=
  dirsFileExists ctx.dirs d f

/-- The phase-scoped context directory name `f"phase{task.get('phase', 0)}"`. -/
def phaseDirName (t : PyDict) : String :=
  "phase" ++ pyStr ((aget t "phase").getD (Val.int 0))

/-- The context document name `f"context_{task_id}.md"`. -/
def ctxFileName (tid : String) : String :=
  "context_" ++ tid ++ ".md"

/-- The legacy dot-prefixed context document name
`f".task_context_{task_id}.md"`. -/
def dotCtxName (tid : String) : String :=
  ".task_context_" ++ tid ++ ".md"

/-- The note list a lifecycle command builds:
`task.get("notes", []) + [note]` — `none` models the `TypeError` raised
when the stored `notes` value is not a list. -/
def notesOf (t : PyDict) : Option (List Val) :=
  match aget t "notes" with
  | Option.none => some []
  | some (Val.list l) => some l
  | some _ => Option.none

/-- `TaskManager.cmd_start`: look the task up in the merged view (a missing
id prints and returns, changing nothing), write the in-progress status, the
update timestamp and a `Task started` note through `save_task_updates`, then
create the phase-scoped context directory and the context document.  The
document body (description, criteria, resolved context) is written but not
tracked.  `none` models a raised exception. -/
def cmdStart (fs : FS) (ctx : CtxFS) (tid now : String) : Option (FS × CtxFS) :=
  match findTaskE tid (loadTasks fs).tasks with
  | Option.none => Option.none
  | some Option.none => some (fs, ctx)
  | some (some t) =>
    match aget t "description" with
    | Option.none => Option.none
    | some _ =>
      match notesOf t with
      | Option.none => Option.none
      | some ns =>
        let upd : PyDict :=
          [("status", Val.str "in-progress"), ("updated", Val.str now),
           ("notes", Val.list (ns ++
             [Val.dict [("timestamp", Val.str now), ("note", Val.str "Task started")]]))]
        match saveTaskUpdates fs tid upd with
        | Option.none => Option.none
        | some fs2 =>
          let d := phaseDirName t
          some (fs2, ctxWrite (ctxMkdir ctx d) d (ctxFileName tid))

/-- The context cleanup of `cmd_commit_enhanced`: walk the `phase*`
subdirectories of `contexts/`, delete the task's context document from the
first one that holds it, then delete the dot-prefixed legacy variant at the
project root if present. -/
def removeFirstCtx (tid : String) : List (String × List String) → List (String × List String)
  | [] => []
  | (d, files) :: rest =>
    if listPrefixOf "phase".toList d.toList && files.contains (ctxFileName tid) then
      (d, files.filter (fun f => !(f == ctxFileName tid))) :: rest
    else (d, files) :: removeFirstCtx tid rest

/-- Both deletions of the commit cleanup. -/
def cmdCommitCleanup (ctx : CtxFS) (tid : String) : CtxFS :=
  { dirs := removeFirstCtx tid ctx.dirs
    rootFiles := ctx.rootFiles.filter (fun f => !(f == dotCtxName tid)) }

/-- `cmd_commit_enhanced` as far as the stores are concerned: look the task
up (a missing id prints and returns, changing nothing), write the completed
status, the update timestamp and a committed note through
`save_task_updates`, then remove the context documents.  The git invocation,
report and blueprint generation are external collaborators outside the
model. -/
def cmdCommit (fs : FS) (ctx : CtxFS) (tid now msg : String) : Option (FS × CtxFS) :=
  match findTaskE tid (loadTasks fs).tasks with
  | Option.none => Option.none
  | some Option.none => some (fs, ctx)
  | some (some t) =>
    match notesOf t with
    | Option.none => Option.none
    | some ns =>
      let upd : PyDict :=
        [("status", Val.str "completed"), ("updated", Val.str now),
         ("notes", Val.list (ns ++
           [Val.dict [("timestamp", Val.str now),
                      ("note", Val.str ("Task committed: " ++ msg))]]))]
      match saveTaskUpdates fs tid upd with
      | Option.none => Option.none
      | some fs2 => some (fs2, cmdCommitCleanup ctx tid)

/-- Does the record's `id` entry equal the given task id, the way the
source's `task["id"] == task_id` compares (false when the key is absent —
the loops raise there, handled separately)? -/
def idMatches (tid : String) (t : PyDict) : Bool :=
  match aget t "id" with
  | some v => keyEq v (Val.str tid)
  | Option.none => false

/-- No record of the list carries the given task id. -/
abbrev noMatch (tid : String) (l : List PyDict) : Prop :=
  l.all (fun t => !(idMatches tid t)) = true

/-- Every record of the list has an `id` key (well-formed task lists; the
lookup loops raise `KeyError` otherwise). -/
abbrev allHaveId (l : List PyDict) : Prop :=
  l.all (fun t => hasKey t "id") = true

/-- The update map touches none of the load-time stamp keys
`phase`/`phase_name`/`phase_file`. -/
abbrev updatesNoStamps (u : PyDict) : Prop :=
  u.all (fun kv => !(["phase", "phase_name", "phase_file"].contains kv.1)) = true

/-- The stamped task lists contributed by a list of phase files, in order. -/
def phaseTasksOf (l : List PhaseFile) : List PyDict :=
  (l.map (fun q => q.tasks.map (stampTask q))).flatten

/-- Concrete task records and stores used by the witnesses and
counterexamples below. -/
def wTask1 : PyDict :=
  [("id", Val.str "t1"), ("description", Val.str "d"), ("status", Val.str "pending")]

/-- A one-task phase file with id 1. -/
def wPf1 : PhaseFile :=
  ⟨"phase1_a.yml", [("id", Val.int 1), ("name", Val.str "A")], [wTask1]⟩

/-- A store with no legacy file and the single phase file `wPf1`. -/
def wFs1 : FS := ⟨Option.none, [wPf1]⟩

/-- A legacy record without an explicit `phase` tag. -/
def wLegTask : PyDict := [("id", Val.str "L"), ("description", Val.str "ld")]

/-- A store with a one-record legacy file and the phase file `wPf1`. -/
def wFsLeg : FS := ⟨some [wLegTask], [wPf1]⟩

/-- A store whose only task carries the repository's own in-progress status
spelling. -/
def wFsInProg : FS :=
  ⟨Option.none, [⟨"phase1_a.yml", [("id", Val.int 1), ("name", Val.str "A")],
    [[("id", Val.str "t1"), ("status", Val.str "in-progress")]]⟩]⟩

/-- A store whose only task has the pathological status string `total`. -/
def wFsTotal : FS :=
  ⟨Option.none, [⟨"phase1_a.yml", [("id", Val.int 1), ("name", Val.str "A")],
    [[("id", Val.str "t1"), ("status", Val.str "total")]]⟩]⟩

/-- A store with one phase holding 29 completed and 71 pending tasks. -/
def wFs29 : FS :=
  ⟨Option.none, [⟨"phase1_a.yml", [("id", Val.int 1), ("name", Val.str "A")],
    List.replicate 29 [("status", Val.str "completed")]
      ++ List.replicate 71 [("status", Val.str "pending")]⟩]⟩

/-- An empty context tree next to a legacy dot-prefixed context file. -/
def wCtx : CtxFS := ⟨[], [".task_context_t1.md"]⟩

/-- An abstract project tree holding `src/foo.py` with a function `bar`
followed by a blank line and a further top-level statement. -/
def wFiles : List (String × String) :=
  [("src/foo.py", "def bar():\n    return 1\n\nx = 2")]

/-- The task of `wFs1` as it appears in the merged view (with load-time
stamps). -/
def wStamped : PyDict := stampTask wPf1 wTask1

/-- The store `wFs1` after `cmd_start` on `t1` at time `NOW`. -/
def wFs1Started : FS :=
  ⟨Option.none, [⟨"phase1_a.yml", [("id", Val.int 1), ("name", Val.str "A")],
    [[("id", Val.str "t1"), ("description", Val.str "d"), ("status", Val.str "in-progress"),
      ("updated", Val.str "NOW"),
      ("notes", Val.list [Val.dict [("timestamp", Val.str "NOW"),
                                    ("note", Val.str "Task started")]])]]⟩]⟩

/-- The context tree `wCtx` after `cmd_start` on `t1`. -/
def wCtx1Started : CtxFS := ⟨[("phase1", ["context_t1.md"])], [".task_context_t1.md"]⟩

/-- The store after committing `t1` at time `N2` with message `m`. -/
def wFs2Committed : FS :=
  ⟨Option.none, [⟨"phase1_a.yml", [("id", Val.int 1), ("name", Val.str "A")],
    [[("id", Val.str "t1"), ("description", Val.str "d"), ("status", Val.str "completed"),
      ("updated", Val.str "N2"),
      ("notes", Val.list [Val.dict [("timestamp", Val.str "NOW"),
                                    ("note", Val.str "Task started")],
                          Val.dict [("timestamp", Val.str "N2"),
                                    ("note", Val.str "Task committed: m")]])]]⟩]⟩

/-- The context tree after the commit cleanup. -/
def wCtx2Committed : CtxFS := ⟨[("phase1", [])], []⟩

/-- The record `save_task_updates` writes back for a phase-owned task: the
stored record with the load-time stamps merged in, the update map folded
over it, and the stamp keys stripped again (`clean_task` of
`_update_phase_file`). -/
def savedRec (pf : PhaseFile) (t : PyDict) (u : PyDict) : PyDict :=
  stripKeys ["phase", "phase_name", "phase_file"] (pyUpdate (stampTask pf t) u)

/-- The owning phase file after `save_task_updates` replaced the task at the
split position. -/
def updatedFile (pf : PhaseFile) (T1 : List PyDict) (t : PyDict) (T2 : List PyDict)
    (u : PyDict) : PhaseFile :=
  ⟨pf.name, pf.info, T1 ++ savedRec pf t u :: T2⟩

/-- The record `save_task_updates` writes back for a legacy-owned task: the
stored record with the load-time tagging applied, the update map folded over
it, and only `phase_name`/`phase_file` stripped (`clean_task` of
`_update_legacy_tasks`). -/
def savedLegacyRec (t u : PyDict) : PyDict :=
  stripKeys ["phase_name", "phase_file"] (pyUpdate (tagLegacy t) u)

/-- Is the status value one of the four bucket keys of the progress dict
(the statuses that land in a counter)? -/
def bucketStatusV : Val → Bool
  | Val.str s => s == "completed" || s == "in_progress" || s == "pending" || s == "blocked"
  | _ => false

/-- The sum of the four status buckets of one progress entry. -/
def bucketsOf (e : Prog) : Int :=
  e.completed + e.in_progress + e.pending + e.blocked

/-- The sum of the `total` counters over a progress table. -/
def sumTotals (st : List (Val × Prog)) : Int :=
  (st.map (fun ke => ke.2.total)).sum

/-- The sum of all four status buckets over a progress table. -/
def sumBuckets (st : List (Val × Prog)) : Int :=
  (st.map (fun ke => bucketsOf ke.2)).sum

/-- The progress entry the pipeline produces for `wFs1` (one pending task in
phase 1). -/
def wProgPending : Prog := ⟨Val.str "A", 1, 0, 0, 1, 0, 0⟩

theorem aget_aset_self (t : PyDict) (k : String) (v : Val) :
    aget (aset t k v) k = some v := by
  induction t with
  | nil => simp [aset, aget]
  | cons kv r ih =>
    obtain ⟨k0, v0⟩ := kv
    by_cases h : k0 = k
    · simp [aset, h, aget]
    · simp [aset, h, aget, ih]

theorem aget_aset_ne (t : PyDict) (k k2 : String) (v : Val) (h : k ≠ k2) :
    aget (aset t k2 v) k = aget t k := by
  induction t with
  | nil => simp [aset, aget, Ne.symm h]
  | cons kv r ih =>
    obtain ⟨k0, v0⟩ := kv
    by_cases h0 : k0 = k2
    · subst h0
      simp [aset, aget, Ne.symm h]
    · by_cases hk : k0 = k
      · subst hk
        simp [aset, h, aget]
      · simp [aset, h0, aget, hk, ih]

theorem aget_stampTask_id (pf : PhaseFile) (t : PyDict) :
    aget (stampTask pf t) "id" = aget t "id" := by
  unfold stampTask
  rw [aget_aset_ne _ _ _ _ (by decide), aget_aset_ne _ _ _ _ (by decide),
    aget_aset_ne _ _ _ _ (by decide)]

theorem aget_stampTask_phase (pf : PhaseFile) (t : PyDict) :
    aget (stampTask pf t) "phase" = some (phaseIdOf pf) := by
  unfold stampTask
  rw [aget_aset_ne _ _ _ _ (by decide), aget_aset_ne _ _ _ _ (by decide),
    aget_aset_self]

theorem aget_stampTask_phase_file (pf : PhaseFile) (t : PyDict) :
    aget (stampTask pf t) "phase_file" = some (Val.str pf.name) := by
  unfold stampTask
  rw [aget_aset_self]

theorem aget_stampTask_phase_name (pf : PhaseFile) (t : PyDict) :
    aget (stampTask pf t) "phase_name" = some (phaseNameOf pf) := by
  unfold stampTask
  rw [aget_aset_ne _ _ _ _ (by decide), aget_aset_self]

theorem aget_tagLegacy_ne (t : PyDict) (k : String) (h : k ≠ "phase") :
    aget (tagLegacy t) k = aget t k := by
  unfold tagLegacy
  by_cases hp : hasKey t "phase"
  · simp [hp]
  · simp [hp, aget_aset_ne _ _ _ _ h]

theorem aget_tagLegacy_phase (t : PyDict) :
    aget (tagLegacy t) "phase" = some ((aget t "phase").getD (Val.int 0)) := by
  unfold tagLegacy
  by_cases hp : hasKey t "phase"
  · rcases ho : aget t "phase" with _ | v
    · simp [hasKey, ho] at hp
    · simp [hp, ho]
  · rcases ho : aget t "phase" with _ | v
    · simp [hp, ho, aget_aset_self]
    · simp [hasKey, ho] at hp

theorem loadFold_fst (l : List PhaseFile) (acc : List PyDict × List (Val × PMeta)) :
    (l.foldl loadPhaseStep acc).1 = acc.1 ++ phaseTasksOf l := by
  induction l generalizing acc with
  | nil => simp [phaseTasksOf]
  | cons q qs ih => simp [List.foldl_cons, ih, loadPhaseStep, phaseTasksOf]

theorem loadTasks_tasks_eq (fs : FS) :
    (loadTasks fs).tasks
      = (fs.legacy.getD []).map tagLegacy ++ phaseTasksOf (sortPhases fs.phases) := by
  simp [loadTasks, loadFold_fst]

theorem insertByName_perm (p : PhaseFile) (l : List PhaseFile) :
    (insertByName p l).Perm (p :: l) := by
  induction l with
  | nil => simp [insertByName]
  | cons q qs ih =>
    by_cases h : p.name ≤ q.name
    · simp [insertByName, h]
    · simp only [insertByName, h, if_false]
      exact (ih.cons q).trans (List.Perm.swap p q qs)

theorem sortPhases_perm (l : List PhaseFile) : (sortPhases l).Perm l := by
  induction l with
  | nil => simp [sortPhases]
  | cons q qs ih => exact (insertByName_perm q (sortPhases qs)).trans (ih.cons q)

theorem phaseTasksOf_cons (q : PhaseFile) (qs : List PhaseFile) :
    phaseTasksOf (q :: qs) = q.tasks.map (stampTask q) ++ phaseTasksOf qs := by
  simp [phaseTasksOf]

theorem phaseTasksOf_append (l1 l2 : List PhaseFile) :
    phaseTasksOf (l1 ++ l2) = phaseTasksOf l1 ++ phaseTasksOf l2 := by
  simp [phaseTasksOf]

theorem phaseTasksOf_length (l : List PhaseFile) :
    (phaseTasksOf l).length = (l.map (fun q => q.tasks.length)).sum := by
  induction l with
  | nil => simp [phaseTasksOf]
  | cons q qs ih =>
    rw [phaseTasksOf_cons, List.length_append, List.length_map, ih, List.map_cons,
      List.sum_cons]

theorem mem_phaseTasksOf (t : PyDict) (l : List PhaseFile) :
    t ∈ phaseTasksOf l ↔ ∃ q ∈ l, ∃ s ∈ q.tasks, stampTask q s = t := by
  induction l with
  | nil => simp [phaseTasksOf]
  | cons q qs ih =>
    rw [phaseTasksOf_cons]
    simp only [List.mem_append, ih, List.mem_map, List.mem_cons]
    constructor
    · rintro (⟨s, hs, rfl⟩ | ⟨p, hp, s, hs, rfl⟩)
      · exact ⟨q, Or.inl rfl, s, hs, rfl⟩
      · exact ⟨p, Or.inr hp, s, hs, rfl⟩
    · rintro ⟨p, rfl | hp, s, hs, rfl⟩
      · exact Or.inl ⟨s, hs, rfl⟩
      · exact Or.inr ⟨p, hp, s, hs, rfl⟩

theorem findTaskE_cons_match (tid : String) (t : PyDict) (l : List PyDict)
    (h : idMatches tid t = true) : findTaskE tid (t :: l) = some (some t) := by
  rcases ho : aget t "id" with _ | v
  · simp only [idMatches, ho] at h
    exact Bool.noConfusion h
  · simp only [idMatches, ho] at h
    simp [findTaskE, ho, h]

theorem findTaskE_cons_skip (tid : String) (t : PyDict) (l : List PyDict)
    (hid : hasKey t "id" = true) (h : idMatches tid t = false) :
    findTaskE tid (t :: l) = findTaskE tid l := by
  rcases ho : aget t "id" with _ | v
  · simp [hasKey, ho] at hid
  · simp only [idMatches, ho] at h
    simp [findTaskE, ho, h]

theorem findTaskE_append_skip (tid : String) (l1 l2 : List PyDict)
    (hid : allHaveId l1) (h : noMatch tid l1) :
    findTaskE tid (l1 ++ l2) = findTaskE tid l2 := by
  induction l1 with
  | nil => simp
  | cons t ts ih =>
    simp only [allHaveId, List.all_cons, Bool.and_eq_true] at hid
    simp only [noMatch, List.all_cons, Bool.and_eq_true, Bool.not_eq_true'] at h
    rw [List.cons_append, findTaskE_cons_skip tid t _ hid.1 h.1]
    exact ih hid.2 h.2

theorem findTaskE_not_found (tid : String) (l : List PyDict)
    (hid : allHaveId l) (h : noMatch tid l) :
    findTaskE tid l = some Option.none := by
  have := findTaskE_append_skip tid l [] hid h
  simpa using this

theorem replaceInTasks_cons_match (tid : String) (c t : PyDict) (l : List PyDict)
    (h : idMatches tid t = true) : replaceInTasks tid c (t :: l) = some (c :: l) := by
  rcases ho : aget t "id" with _ | v
  · simp only [idMatches, ho] at h
    exact Bool.noConfusion h
  · simp only [idMatches, ho] at h
    simp [replaceInTasks, ho, h]

theorem replaceInTasks_cons_skip (tid : String) (c t : PyDict) (l : List PyDict)
    (hid : hasKey t "id" = true) (h : idMatches tid t = false) :
    replaceInTasks tid c (t :: l) = (replaceInTasks tid c l).map (t :: ·) := by
  rcases ho : aget t "id" with _ | v
  · simp [hasKey, ho] at hid
  · simp only [idMatches, ho] at h
    simp [replaceInTasks, ho, h]

theorem replaceInTasks_split (tid : String) (c : PyDict) (l1 : List PyDict)
    (t : PyDict) (l2 : List PyDict)
    (hid : allHaveId l1) (h : noMatch tid l1) (hm : idMatches tid t = true) :
    replaceInTasks tid c (l1 ++ t :: l2) = some (l1 ++ c :: l2) := by
  induction l1 with
  | nil => simpa using replaceInTasks_cons_match tid c t l2 hm
  | cons s ss ih =>
    simp only [allHaveId, List.all_cons, Bool.and_eq_true] at hid
    simp only [noMatch, List.all_cons, Bool.and_eq_true, Bool.not_eq_true'] at h
    rw [List.cons_append, replaceInTasks_cons_skip tid c s _ hid.1 h.1,
      ih hid.2 h.2]
    rfl

/-- C1: for every store of a legacy task list and phase files, `load_tasks`
returns exactly as many tasks as the source lists hold together; every
returned task carries a `phase` entry; the leading records of the collection
are the legacy records put through the load-time tagging, which assigns
phase 0 exactly to those with no explicit `phase` tag. -/
theorem C1_load_tasks_shape (fs : FS) :
    (loadTasks fs).tasks.length
        = (fs.legacy.getD []).length + (fs.phases.map (fun q => q.tasks.length)).sum
      ∧ (∀ t ∈ (loadTasks fs).tasks, hasKey t "phase" = true)
      ∧ (loadTasks fs).tasks.take (fs.legacy.getD []).length
          = (fs.legacy.getD []).map tagLegacy
      ∧ ∀ t : PyDict, hasKey t "phase" = false →
          aget (tagLegacy t) "phase" = some (Val.int 0) := by
  refine ⟨?_, ?_, ?_, ?_⟩
  · rw [loadTasks_tasks_eq, List.length_append, List.length_map, phaseTasksOf_length,
      List.Perm.sum_eq ((sortPhases_perm fs.phases).map (fun q => q.tasks.length))]
  · intro t ht
    rw [loadTasks_tasks_eq] at ht
    rcases List.mem_append.mp ht with hl | hp
    · rcases List.mem_map.mp hl with ⟨s, _, rfl⟩
      by_cases hs : hasKey s "phase"
      · simp [tagLegacy, hs]
      · simp [hasKey, aget_tagLegacy_phase]
    · rcases (mem_phaseTasksOf t _).mp hp with ⟨q, _, s, _, rfl⟩
      simp [hasKey, aget_stampTask_phase]
  · rw [loadTasks_tasks_eq, ← List.length_map (fs.legacy.getD []) tagLegacy,
      List.take_left]
  · intro t h
    simp [tagLegacy, h, aget_aset_self]

/-- C1 witness: the shape theorem evaluated on a concrete store with one
untagged legacy record and one phase file of one task. -/
theorem C1_load_tasks_shape_witness :
    (loadTasks wFsLeg).tasks.length
        = (wFsLeg.legacy.getD []).length + (wFsLeg.phases.map (fun q => q.tasks.length)).sum
      ∧ hasKey (tagLegacy wLegTask) "phase" = true
      ∧ aget (tagLegacy wLegTask) "phase" = some (Val.int 0) :=
  ⟨(C1_load_tasks_shape wFsLeg).1,
   (C1_load_tasks_shape wFsLeg).2.1 (tagLegacy wLegTask) (List.mem_cons_self _ _),
   (C1_load_tasks_shape wFsLeg).2.2.2 wLegTask (by decide)⟩

/-- C4: when the requested task id is absent from the merged collection,
`save_task_updates` raises nothing, returns normally and leaves both the
legacy file and every phase file untouched (no file is even opened for
writing). -/
theorem C4_save_missing_id_noop (fs : FS) (tid : String) (u : PyDict)
    (hid : allHaveId (loadTasks fs).tasks) (habs : noMatch tid (loadTasks fs).tasks) :
    saveTaskUpdates fs tid u = some fs := by
  unfold saveTaskUpdates
  rw [findTaskE_not_found tid _ hid habs]

/-- C4 witness: saving against a missing id on a concrete two-file store
returns the store unchanged. -/
theorem C4_save_missing_id_noop_witness :
    saveTaskUpdates wFsLeg "zz" [("status", Val.str "completed")] = some wFsLeg :=
  C4_save_missing_id_noop wFsLeg "zz" _ (by decide) (by decide)

/-- C10: when the requested task id is absent from the merged collection,
`cmd_start` prints a message and returns: no task record is updated, no
backing file rewritten, no context directory or file created. -/
theorem C10_cmd_start_missing_noop (fs : FS) (ctx : CtxFS) (tid now : String)
    (hid : allHaveId (loadTasks fs).tasks) (habs : noMatch tid (loadTasks fs).tasks) :
    cmdStart fs ctx tid now = some (fs, ctx) := by
  unfold cmdStart
  rw [findTaskE_not_found tid _ hid habs]

/-- C10 witness: starting a missing id on a concrete store leaves both the
task stores and the context tree unchanged. -/
theorem C10_cmd_start_missing_noop_witness :
    cmdStart wFsLeg wCtx "zz" "2025-01-01T00:00:00" = some (wFsLeg, wCtx) :=
  C10_cmd_start_missing_noop wFsLeg wCtx "zz" "2025-01-01T00:00:00" (by decide) (by decide)

theorem mem_add_self (l : List String) (f : String) :
    f ∈ (if f ∈ l then l else l ++ [f]) := by
  by_cases h : f ∈ l
  · rwa [if_pos h]
  · rw [if_neg h]
    exact List.mem_append_right _ (List.mem_singleton.mpr rfl)

theorem dirsFileExists_of_no_dir (dirs : List (String × List String)) (d f : String)
    (h : dirsHasDir dirs d = false) : dirsFileExists dirs d f = false := by
  induction dirs with
  | nil => rfl
  | cons e rest ih =>
    obtain ⟨d0, fl⟩ := e
    simp only [dirsHasDir, Bool.or_eq_false_iff] at h
    simp only [dirsFileExists]
    rw [if_neg (by simpa using h.1)]
    exact ih h.2

theorem dirsFileExists_append (dirs l2 : List (String × List String)) (d f : String) :
    dirsFileExists (dirs ++ l2) d f
      = (if dirsHasDir dirs d then dirsFileExists dirs d f else dirsFileExists l2 d f) := by
  induction dirs with
  | nil => simp [dirsFileExists, dirsHasDir]
  | cons e rest ih =>
    obtain ⟨d0, fl⟩ := e
    by_cases h : d0 = d
    · simp [dirsFileExists, dirsHasDir, h]
    · simp [dirsFileExists, dirsHasDir, h, ih]

theorem dirsWriteConsEq (d f : String) (fl : List String)
    (rest : List (String × List String)) :
    dirsWrite ((d, fl) :: rest) d f
      = (d, if fl.contains f then fl else fl ++ [f]) :: dirsWrite rest d f := by
  simp [dirsWrite]

theorem dirsWriteConsNe (d0 d f : String) (fl : List String)
    (rest : List (String × List String)) (hd : ¬d0 = d) :
    dirsWrite ((d0, fl) :: rest) d f = (d0, fl) :: dirsWrite rest d f := by
  simp [dirsWrite, hd]

theorem dirsFileExistsConsEq (d f : String) (fl : List String)
    (rest : List (String × List String)) :
    dirsFileExists ((d, fl) :: rest) d f = fl.contains f := by
  simp [dirsFileExists]

theorem dirsFileExistsConsNe (d0 d f : String) (fl : List String)
    (rest : List (String × List String)) (hd : ¬d0 = d) :
    dirsFileExists ((d0, fl) :: rest) d f = dirsFileExists rest d f := by
  simp [dirsFileExists, hd]

theorem ctxFileExists_mkdir (c : CtxFS) (d d2 f2 : String) :
    ctxFileExists (ctxMkdir c d) d2 f2 = ctxFileExists c d2 f2 := by
  unfold ctxMkdir ctxFileExists
  by_cases h : dirsHasDir c.dirs d = true
  · rw [if_pos h]
  · rw [if_neg h]
    dsimp only
    rw [dirsFileExists_append]
    by_cases h2 : dirsHasDir c.dirs d2 = true
    · rw [if_pos h2]
    · rw [if_neg h2, dirsFileExists_of_no_dir c.dirs d2 f2 (by simpa using h2)]
      by_cases hd : d = d2
      · subst hd
        simp [dirsFileExists]
      · simp [dirsFileExists, hd]

theorem dirsHasDir_append_self (dirs : List (String × List String)) (d : String) :
    dirsHasDir (dirs ++ [(d, [])]) d = true := by
  induction dirs with
  | nil => simp [dirsHasDir]
  | cons e rest ih =>
    obtain ⟨d0, fl⟩ := e
    simp [dirsHasDir, ih]

theorem dirsHasDir_mkdir (c : CtxFS) (d : String) :
    dirsHasDir (ctxMkdir c d).dirs d = true := by
  unfold ctxMkdir
  by_cases h : dirsHasDir c.dirs d = true
  · rw [if_pos h]
    exact h
  · rw [if_neg h]
    exact dirsHasDir_append_self c.dirs d

theorem dirsFileExists_write_self (dirs : List (String × List String)) (d f : String)
    (h : dirsHasDir dirs d = true) :
    dirsFileExists (dirsWrite dirs d f) d f = true := by
  induction dirs with
  | nil => simp [dirsHasDir] at h
  | cons e rest ih =>
    obtain ⟨d0, fl⟩ := e
    by_cases hd : d0 = d
    · subst hd
      rw [dirsWriteConsEq, dirsFileExistsConsEq]
      simpa using mem_add_self fl f
    · simp only [dirsHasDir, Bool.or_eq_true] at h
      rcases h with h | h
      · exact absurd (by simpa using h) hd
      · rw [dirsWriteConsNe _ _ _ _ _ hd, dirsFileExistsConsNe _ _ _ _ _ hd]
        exact ih h

theorem dirsFileExists_write_other (dirs : List (String × List String)) (d f d2 f2 : String)
    (h : ¬(d2 = d ∧ f2 = f)) :
    dirsFileExists (dirsWrite dirs d f) d2 f2 = dirsFileExists dirs d2 f2 := by
  induction dirs with
  | nil => rfl
  | cons e rest ih =>
    obtain ⟨d0, fl⟩ := e
    by_cases hd : d0 = d
    · subst hd
      by_cases hd2 : d0 = d2
      · subst hd2
        have hf2 : ¬ f2 = f := fun hf => h ⟨rfl, hf⟩
        rw [dirsWriteConsEq, dirsFileExistsConsEq, dirsFileExistsConsEq]
        by_cases hc : fl.contains f = true
        · rw [if_pos hc]
        · rw [if_neg hc]
          simp [List.mem_append, hf2]
      · rw [dirsWriteConsEq, dirsFileExistsConsNe _ _ _ _ _ hd2,
          dirsFileExistsConsNe _ _ _ _ _ hd2]
        exact ih
    · by_cases hd2 : d0 = d2
      · subst hd2
        rw [dirsWriteConsNe _ _ _ _ _ hd, dirsFileExistsConsEq, dirsFileExistsConsEq]
      · rw [dirsWriteConsNe _ _ _ _ _ hd, dirsFileExistsConsNe _ _ _ _ _ hd2,
          dirsFileExistsConsNe _ _ _ _ _ hd2]
        exact ih

theorem removeFirstCtx_kills (tid d : String) (dirs : List (String × List String))
    (hpre : listPrefixOf "phase".toList d.toList = true)
    (honly : ∀ e ∈ dirs, (ctxFileName tid) ∈ e.2 → e.1 = d) :
    dirsFileExists (removeFirstCtx tid dirs) d (ctxFileName tid) = false := by
  induction dirs with
  | nil => rfl
  | cons e rest ih =>
    obtain ⟨d0, fl⟩ := e
    by_cases hd : d0 = d
    · subst hd
      by_cases hc : fl.contains (ctxFileName tid) = true
      · simp only [removeFirstCtx, hpre, hc, Bool.and_self, if_true]
        rw [dirsFileExistsConsEq]
        simp
      · simp only [removeFirstCtx, hc, Bool.and_false]
        rw [if_neg (by simp), dirsFileExistsConsEq]
        simpa using hc
    · have hmem : ctxFileName tid ∉ fl :=
        fun hm => hd (honly (d0, fl) (List.mem_cons_self _ _) hm)
      have hnc : fl.contains (ctxFileName tid) = false := by simp [hmem]
      simp only [removeFirstCtx, hnc, Bool.and_false]
      rw [if_neg (by simp), dirsFileExistsConsNe _ _ _ _ _ hd]
      exact ih (fun e he hm => honly e (List.mem_cons_of_mem _ he) hm)

theorem mem_filter_ne_self (l : List String) (x : String) :
    x ∉ l.filter (fun f => !(f == x)) := by
  intro h
  have := List.mem_filter.mp h
  simp at this

theorem listPrefixOf_append_self (l r : List Char) : listPrefixOf l (l ++ r) = true := by
  induction l with
  | nil => rfl
  | cons a as ih => simp [listPrefixOf, ih]

theorem phaseDirName_starts_phase (t : PyDict) :
    listPrefixOf "phase".toList (phaseDirName t).toList = true :=
  listPrefixOf_append_self "phase".toList (pyStr ((aget t "phase").getD (Val.int 0))).toList

theorem mem_dirsWrite_ne (dirs : List (String × List String)) (d f : String)
    (e : String × List String) (he : e ∈ dirsWrite dirs d f) (hne : e.1 ≠ d) :
    e ∈ dirs := by
  induction dirs with
  | nil => simp [dirsWrite] at he
  | cons e0 rest ih =>
    obtain ⟨d0, fl⟩ := e0
    by_cases hd : d0 = d
    · subst hd
      rw [dirsWriteConsEq] at he
      rcases List.mem_cons.mp he with h | h
      · exact absurd (by rw [h]) hne
      · exact List.mem_cons_of_mem _ (ih h)
    · rw [dirsWriteConsNe _ _ _ _ _ hd] at he
      rcases List.mem_cons.mp he with h | h
      · exact h ▸ List.mem_cons_self _ _
      · exact List.mem_cons_of_mem _ (ih h)

theorem mem_ctxMkdir (c : CtxFS) (d : String) (e : String × List String)
    (he : e ∈ (ctxMkdir c d).dirs) : e ∈ c.dirs ∨ e = (d, []) := by
  unfold ctxMkdir at he
  by_cases h : dirsHasDir c.dirs d = true
  · rw [if_pos h] at he
    exact Or.inl he
  · rw [if_neg h] at he
    dsimp only at he
    rcases List.mem_append.mp he with h1 | h1
    · exact Or.inl h1
    · exact Or.inr (List.mem_singleton.mp h1)

/-- C8: starting an existing task creates exactly one context document, at
`contexts/phase<phase-id>/context_<task-id>.md`, leaving every other context
document and the project-root dot files untouched; committing that task then
deletes the phase-scoped document and the legacy dot-prefixed variant, so
both existence checks are false afterwards.  The task is required to exist
(both lookups succeed) and no stale copy of the document may already sit in
another context directory. -/
theorem C8_context_lifecycle (fs : FS) (ctx : CtxFS) (tid now now2 msg : String)
    (t : PyDict) (fs1 : FS) (ctx1 : CtxFS) (fs2 : FS) (ctx2 : CtxFS)
    (hfind : findTaskE tid (loadTasks fs).tasks = some (some t))
    (hstart : cmdStart fs ctx tid now = some (fs1, ctx1))
    (hfound1 : ∃ t1, findTaskE tid (loadTasks fs1).tasks = some (some t1))
    (hcommit : cmdCommit fs1 ctx1 tid now2 msg = some (fs2, ctx2))
    (hstale : ∀ e ∈ ctx.dirs, ctxFileName tid ∉ e.2) :
    ctxFileExists ctx1 (phaseDirName t) (ctxFileName tid) = true
      ∧ (∀ d f, ¬(d = phaseDirName t ∧ f = ctxFileName tid) →
          ctxFileExists ctx1 d f = ctxFileExists ctx d f)
      ∧ ctx1.rootFiles = ctx.rootFiles
      ∧ ctxFileExists ctx2 (phaseDirName t) (ctxFileName tid) = false
      ∧ dotCtxName tid ∉ ctx2.rootFiles := by
  have hctx1 : ctx1 = ctxWrite (ctxMkdir ctx (phaseDirName t)) (phaseDirName t) (ctxFileName tid) := by
    rcases hdesc : aget t "description" with _ | dv
    · simp [cmdStart, hfind, hdesc] at hstart
    · rcases hnotes : notesOf t with _ | ns
      · simp [cmdStart, hfind, hdesc, hnotes] at hstart
      · rcases hsave : saveTaskUpdates fs tid
            [("status", Val.str "in-progress"), ("updated", Val.str now),
             ("notes", Val.list (ns ++
               [Val.dict [("timestamp", Val.str now), ("note", Val.str "Task started")]]))]
            with _ | fsx
        · simp [cmdStart, hfind, hdesc, hnotes, hsave] at hstart
        · simp [cmdStart, hfind, hdesc, hnotes, hsave] at hstart
          exact hstart.2.symm
  obtain ⟨t1, hfind1⟩ := hfound1
  have hctx2 : ctx2 = cmdCommitCleanup ctx1 tid := by
    rcases hnotes1 : notesOf t1 with _ | ns1
    · simp [cmdCommit, hfind1, hnotes1] at hcommit
    · rcases hsave1 : saveTaskUpdates fs1 tid
          [("status", Val.str "completed"), ("updated", Val.str now2),
           ("notes", Val.list (ns1 ++
             [Val.dict [("timestamp", Val.str now2),
                        ("note", Val.str ("Task committed: " ++ msg))]]))]
          with _ | fsy
      · simp [cmdCommit, hfind1, hnotes1, hsave1] at hcommit
      · simp [cmdCommit, hfind1, hnotes1, hsave1] at hcommit
        exact hcommit.2.symm
  subst hctx1
  subst hctx2
  have honly : ∀ e ∈ (ctxWrite (ctxMkdir ctx (phaseDirName t)) (phaseDirName t)
      (ctxFileName tid)).dirs, ctxFileName tid ∈ e.2 → e.1 = phaseDirName t := by
    intro e he hm
    by_contra hne
    have h1 : e ∈ (ctxMkdir ctx (phaseDirName t)).dirs :=
      mem_dirsWrite_ne _ _ _ e he hne
    rcases mem_ctxMkdir _ _ _ h1 with h2 | h2
    · exact hstale e h2 hm
    · rw [h2] at hm
      simp at hm
  refine ⟨?_, ?_, ?_, ?_, ?_⟩
  · exact dirsFileExists_write_self _ _ _ (dirsHasDir_mkdir ctx _)
  · intro d f hne
    have h1 : dirsFileExists (dirsWrite (ctxMkdir ctx (phaseDirName t)).dirs
        (phaseDirName t) (ctxFileName tid)) d f
        = dirsFileExists (ctxMkdir ctx (phaseDirName t)).dirs d f :=
      dirsFileExists_write_other _ _ _ _ _ hne
    exact h1.trans (ctxFileExists_mkdir ctx (phaseDirName t) d f)
  · show (ctxMkdir ctx (phaseDirName t)).rootFiles = ctx.rootFiles
    unfold ctxMkdir
    by_cases h : dirsHasDir ctx.dirs (phaseDirName t) = true
    · rw [if_pos h]
    · rw [if_neg h]
  · exact removeFirstCtx_kills tid (phaseDirName t) _ (phaseDirName_starts_phase t) honly
  · exact mem_filter_ne_self _ _

/-- C8 witness: the full start-then-commit lifecycle on a concrete one-task
phase store, with a pre-existing legacy dot context file. -/
theorem C8_context_lifecycle_witness :
    ctxFileExists wCtx1Started "phase1" "context_t1.md" = true
      ∧ ctxFileExists wCtx2Committed "phase1" "context_t1.md" = false
      ∧ ".task_context_t1.md" ∉ wCtx2Committed.rootFiles :=
  ⟨(C8_context_lifecycle wFs1 wCtx "t1" "NOW" "N2" "m" wStamped wFs1Started wCtx1Started
      wFs2Committed wCtx2Committed rfl rfl ⟨stampTask wFs1Started.phases[0]
        [("id", Val.str "t1"), ("description", Val.str "d"), ("status", Val.str "in-progress"),
         ("updated", Val.str "NOW"),
         ("notes", Val.list [Val.dict [("timestamp", Val.str "NOW"),
                                       ("note", Val.str "Task started")]])], rfl⟩
      rfl (by decide)).1,
   (C8_context_lifecycle wFs1 wCtx "t1" "NOW" "N2" "m" wStamped wFs1Started wCtx1Started
      wFs2Committed wCtx2Committed rfl rfl ⟨stampTask wFs1Started.phases[0]
        [("id", Val.str "t1"), ("description", Val.str "d"), ("status", Val.str "in-progress"),
         ("updated", Val.str "NOW"),
         ("notes", Val.list [Val.dict [("timestamp", Val.str "NOW"),
                                       ("note", Val.str "Task started")]])], rfl⟩
      rfl (by decide)).2.2.2.1,
   (C8_context_lifecycle wFs1 wCtx "t1" "NOW" "N2" "m" wStamped wFs1Started wCtx1Started
      wFs2Committed wCtx2Committed rfl rfl ⟨stampTask wFs1Started.phases[0]
        [("id", Val.str "t1"), ("description", Val.str "d"), ("status", Val.str "in-progress"),
         ("updated", Val.str "NOW"),
         ("notes", Val.list [Val.dict [("timestamp", Val.str "NOW"),
                                       ("note", Val.str "Task started")]])], rfl⟩
      rfl (by decide)).2.2.2.2⟩

/-- C5: the code at the failing input.  A phase holds one task whose status
is the repository's own spelling `in-progress` (the value `cmd_start`
writes); the aggregation counts it toward `total` but toward no bucket,
because the bucket membership test `if status in phase_progress[phase]`
checks the dict keys, which spell the bucket `in_progress`.  The returned
entry has `total = 1` and all four buckets zero, so the claimed equality
`completed + in_progress + pending + blocked = total` fails on a collection
whose every status is a recognized value. -/
theorem C5_in_progress_not_bucketed :
    ((loadTasks wFsInProg).tasks.map (fun t => aget t "status"))
        = [some (Val.str "in-progress")]
      ∧ getPhaseProgress wFsInProg
        = some [(Val.int 1, ⟨Val.str "A", 1, 0, 0, 0, 0, 0⟩)] :=
  ⟨rfl, rfl⟩

/-- C9: the code at the failing input.  For the reference
`src/foo.py#bar` with `src/foo.py` present and containing a function `bar`,
`get_context` returns the NOT FOUND marker: the location search looks up the
literal path with the `#section` fragment still attached, which exists
nowhere.  Moreover, even handed the file content directly, the extraction
loop does not stop at the blank line after the function — it collects to the
end of file, reproducing the whole content rather than just the function's
lines. -/
theorem C9_section_reference_unresolved :
    getContext wFiles ["src/foo.py#bar"] = "=== src/foo.py#bar (NOT FOUND) ===\n"
      ∧ fileLookup wFiles "src/foo.py" = some "def bar():\n    return 1\n\nx = 2"
      ∧ extractSection "bar".toList ("def bar():\n    return 1\n\nx = 2").toList
          = ("def bar():\n    return 1\n\nx = 2").toList :=
  ⟨rfl, rfl, rfl⟩

theorem sortPhases_of_sorted (l : List PhaseFile)
    (h : l.Pairwise (fun a b => a.name ≤ b.name)) : sortPhases l = l := by
  induction l with
  | nil => rfl
  | cons p ps ih =>
    obtain ⟨hrel, htail⟩ := List.pairwise_cons.mp h
    rw [sortPhases, ih htail]
    cases ps with
    | nil => rfl
    | cons q qs => rw [insertByName, if_pos (hrel q (List.mem_cons_self _ _))]

theorem aget_pyUpdate_not_mem (u : PyDict) (t : PyDict) (k : String)
    (h : ∀ kv ∈ u, kv.1 ≠ k) : aget (pyUpdate t u) k = aget t k := by
  induction u generalizing t with
  | nil => rfl
  | cons kv r ih =>
    have h1 : pyUpdate t (kv :: r) = pyUpdate (aset t kv.1 kv.2) r := rfl
    rw [h1, ih _ (fun x hx => h x (List.mem_cons_of_mem _ hx)),
      aget_aset_ne _ _ _ _ (Ne.symm (h kv (List.mem_cons_self _ _)))]

theorem stripKeys_cons_mem (ks : List String) (k0 : String) (v0 : Val) (r : PyDict)
    (hm : ks.contains k0 = true) :
    stripKeys ks ((k0, v0) :: r) = stripKeys ks r := by
  simp [stripKeys, List.filter_cons, show k0 ∈ ks from by simpa using hm]

theorem stripKeys_cons_not_mem (ks : List String) (k0 : String) (v0 : Val) (r : PyDict)
    (hm : ks.contains k0 = false) :
    stripKeys ks ((k0, v0) :: r) = (k0, v0) :: stripKeys ks r := by
  simp [stripKeys, List.filter_cons, show k0 ∉ ks from by simpa using hm]

theorem aget_stripKeys_not_mem (ks : List String) (t : PyDict) (k : String)
    (h : ¬ k ∈ ks) : aget (stripKeys ks t) k = aget t k := by
  induction t with
  | nil => rfl
  | cons kv r ih =>
    obtain ⟨k0, v0⟩ := kv
    by_cases hm : ks.contains k0 = true
    · have hne : k0 ≠ k := by
        intro he
        subst he
        exact h (by simpa using hm)
      rw [stripKeys_cons_mem ks k0 v0 r hm,
        show aget ((k0, v0) :: r) k = aget r k from by simp [aget, hne]]
      exact ih
    · rw [stripKeys_cons_not_mem ks k0 v0 r (by simpa using hm)]
      by_cases he : k0 = k
      · simp [aget, he]
      · simp only [aget, he, if_false]
        exact ih

theorem hasKey_stripKeys_mem (ks : List String) (t : PyDict) (k : String)
    (h : k ∈ ks) : hasKey (stripKeys ks t) k = false := by
  induction t with
  | nil => rfl
  | cons kv r ih =>
    obtain ⟨k0, v0⟩ := kv
    by_cases hm : ks.contains k0 = true
    · rw [stripKeys_cons_mem ks k0 v0 r hm]
      exact ih
    · have hne : k0 ≠ k := by
        intro he
        subst he
        exact hm (by simpa using h)
      rw [stripKeys_cons_not_mem ks k0 v0 r (by simpa using hm)]
      simp only [hasKey, aget]
      rw [if_neg hne]
      exact ih

theorem idMatches_tagLegacy (tid : String) (s : PyDict) :
    idMatches tid (tagLegacy s) = idMatches tid s := by
  unfold idMatches
  rw [aget_tagLegacy_ne _ _ (by decide)]

theorem hasKey_tagLegacy_id (s : PyDict) :
    hasKey (tagLegacy s) "id" = hasKey s "id" := by
  unfold hasKey
  rw [aget_tagLegacy_ne _ _ (by decide)]

theorem idMatches_stampTask (tid : String) (q : PhaseFile) (s : PyDict) :
    idMatches tid (stampTask q s) = idMatches tid s := by
  unfold idMatches
  rw [aget_stampTask_id]

theorem hasKey_stampTask_id (q : PhaseFile) (s : PyDict) :
    hasKey (stampTask q s) "id" = hasKey s "id" := by
  unfold hasKey
  rw [aget_stampTask_id]

theorem allHaveId_map_tagLegacy (l : List PyDict) (h : allHaveId l) :
    allHaveId (l.map tagLegacy) := by
  simp only [allHaveId, List.all_eq_true] at h ⊢
  intro t ht
  rcases List.mem_map.mp ht with ⟨s, hs, rfl⟩
  rw [hasKey_tagLegacy_id]
  exact h s hs

theorem noMatch_map_tagLegacy (tid : String) (l : List PyDict) (h : noMatch tid l) :
    noMatch tid (l.map tagLegacy) := by
  simp only [noMatch, List.all_eq_true] at h ⊢
  intro t ht
  rcases List.mem_map.mp ht with ⟨s, hs, rfl⟩
  rw [idMatches_tagLegacy]
  exact h s hs

theorem allHaveId_phaseTasks (l : List PhaseFile)
    (h : ∀ q ∈ l, allHaveId q.tasks) : allHaveId (phaseTasksOf l) := by
  simp only [allHaveId, List.all_eq_true] at h ⊢
  intro t ht
  rcases (mem_phaseTasksOf t l).mp ht with ⟨q, hq, s, hs, rfl⟩
  rw [hasKey_stampTask_id]
  exact h q hq s hs

theorem noMatch_phaseTasks (tid : String) (l : List PhaseFile)
    (h : ∀ q ∈ l, noMatch tid q.tasks) : noMatch tid (phaseTasksOf l) := by
  simp only [noMatch, List.all_eq_true] at h ⊢
  intro t ht
  rcases (mem_phaseTasksOf t l).mp ht with ⟨q, hq, s, hs, rfl⟩
  rw [idMatches_stampTask]
  exact h q hq s hs

theorem allHaveId_map_stamp (q : PhaseFile) (l : List PyDict) (h : allHaveId l) :
    allHaveId (l.map (stampTask q)) := by
  simp only [allHaveId, List.all_eq_true] at h ⊢
  intro t ht
  rcases List.mem_map.mp ht with ⟨s, hs, rfl⟩
  rw [hasKey_stampTask_id]
  exact h s hs

theorem noMatch_map_stamp (tid : String) (q : PhaseFile) (l : List PyDict)
    (h : noMatch tid l) : noMatch tid (l.map (stampTask q)) := by
  simp only [noMatch, List.all_eq_true] at h ⊢
  intro t ht
  rcases List.mem_map.mp ht with ⟨s, hs, rfl⟩
  rw [idMatches_stampTask]
  exact h s hs

theorem find_phaseFile_by_name (P1 : List PhaseFile) (pf : PhaseFile) (P2 : List PhaseFile)
    (hno : ∀ q ∈ P1, q.name ≠ pf.name) :
    (P1 ++ pf :: P2).find? (fun q => q.name == pf.name) = some pf := by
  induction P1 with
  | nil => simp [List.find?]
  | cons q qs ih =>
    have hq : (q.name == pf.name) = false := by
      simp [hno q (List.mem_cons_self _ _)]
    simp only [List.cons_append, List.find?, hq]
    exact ih (fun x hx => hno x (List.mem_cons_of_mem _ hx))

theorem map_if_name_id (l : List PhaseFile) (pf : PhaseFile) (ts : List PyDict)
    (hno : ∀ q ∈ l, q.name ≠ pf.name) :
    l.map (fun q => if q.name == pf.name then { q with tasks := ts } else q) = l := by
  induction l with
  | nil => rfl
  | cons q qs ih =>
    rw [List.map_cons, if_neg (by simp [hno q (List.mem_cons_self _ _)]),
      ih (fun x hx => hno x (List.mem_cons_of_mem _ hx))]

theorem map_update_by_name (P1 : List PhaseFile) (pf : PhaseFile) (P2 : List PhaseFile)
    (ts : List PyDict)
    (hno1 : ∀ q ∈ P1, q.name ≠ pf.name) (hno2 : ∀ q ∈ P2, q.name ≠ pf.name) :
    (P1 ++ pf :: P2).map
        (fun q => if q.name == pf.name then { q with tasks := ts } else q)
      = P1 ++ { pf with tasks := ts } :: P2 := by
  rw [List.map_append, List.map_cons, map_if_name_id P1 pf ts hno1,
    map_if_name_id P2 pf ts hno2, if_pos (by simp)]

theorem noStamps_ne (u : PyDict) (h : updatesNoStamps u) :
    ∀ kv ∈ u, kv.1 ≠ "phase" ∧ kv.1 ≠ "phase_name" ∧ kv.1 ≠ "phase_file" := by
  simp only [updatesNoStamps, List.all_eq_true] at h
  intro kv hm
  have h2 := h kv hm
  refine ⟨?_, ?_, ?_⟩ <;> intro he <;> rw [he] at h2 <;> exact absurd h2 (by decide)

theorem set_append_add {α : Type} (l1 l2 : List α) (n : Nat) (x : α) :
    (l1 ++ l2).set (l1.length + n) x = l1 ++ l2.set n x := by
  induction l1 with
  | nil => simp
  | cons a as ih =>
    simp only [List.cons_append, List.length_cons]
    rw [show as.length + 1 + n = (as.length + n) + 1 from by omega]
    simp only [List.set_cons_succ]
    rw [ih]

theorem sorted_name_replace (P1 : List PhaseFile) (pf : PhaseFile) (P2 : List PhaseFile)
    (ts : List PyDict)
    (h : (P1 ++ pf :: P2).Pairwise (fun a b => a.name ≤ b.name)) :
    (P1 ++ { pf with tasks := ts } :: P2).Pairwise (fun a b => a.name ≤ b.name) := by
  rw [List.pairwise_append] at h ⊢
  obtain ⟨h1, h2, h3⟩ := h
  refine ⟨h1, ?_, ?_⟩
  · rw [List.pairwise_cons] at h2 ⊢
    exact ⟨fun b hb => h2.1 b hb, h2.2⟩
  · intro a ha b hb
    rcases List.mem_cons.mp hb with rfl | hb2
    · exact h3 a ha pf (List.mem_cons_self _ _)
    · exact h3 a ha b (List.mem_cons_of_mem _ hb2)

theorem aget_stampTask_ne (pf : PhaseFile) (r : PyDict) (k : String)
    (h1 : k ≠ "phase") (h2 : k ≠ "phase_name") (h3 : k ≠ "phase_file") :
    aget (stampTask pf r) k = aget r k := by
  unfold stampTask
  rw [aget_aset_ne _ _ _ _ h3, aget_aset_ne _ _ _ _ h2, aget_aset_ne _ _ _ _ h1]

theorem stampTask_update_tasks (pf : PhaseFile) (ts : List PyDict) :
    stampTask { pf with tasks := ts } = stampTask pf := rfl

theorem saveTaskUpdates_phase_case (leg : Option (List PyDict)) (P1 : List PhaseFile)
    (pf : PhaseFile) (P2 : List PhaseFile) (T1 : List PyDict) (t : PyDict)
    (T2 : List PyDict) (tid : String) (u : PyDict)
    (htasks : pf.tasks = T1 ++ t :: T2)
    (hsorted : (P1 ++ pf :: P2).Pairwise (fun a b => a.name ≤ b.name))
    (hno1 : ∀ q ∈ P1, q.name ≠ pf.name) (hno2 : ∀ q ∈ P2, q.name ≠ pf.name)
    (hlegid : allHaveId (leg.getD [])) (hlegno : noMatch tid (leg.getD []))
    (hP1 : ∀ q ∈ P1, allHaveId q.tasks ∧ noMatch tid q.tasks)
    (hT1id : allHaveId T1) (hT1no : noMatch tid T1)
    (ht : idMatches tid t = true)
    (hu : updatesNoStamps u)
    (hname : pf.name.isEmpty = false) :
    saveTaskUpdates ⟨leg, P1 ++ pf :: P2⟩ tid u
        = some ⟨leg, P1 ++ updatedFile pf T1 t T2 u :: P2⟩ := by
  have hns := noStamps_ne u hu
  have hfind : findTaskE tid (loadTasks ⟨leg, P1 ++ pf :: P2⟩).tasks
      = some (some (stampTask pf t)) := by
    rw [loadTasks_tasks_eq]
    show findTaskE tid (((leg.getD []).map tagLegacy)
        ++ phaseTasksOf (sortPhases (P1 ++ pf :: P2))) = _
    rw [sortPhases_of_sorted _ hsorted, phaseTasksOf_append, phaseTasksOf_cons, htasks,
      List.map_append, List.map_cons]
    simp only [List.append_assoc, List.cons_append]
    rw [findTaskE_append_skip _ _ _ (allHaveId_map_tagLegacy _ hlegid)
        (noMatch_map_tagLegacy _ _ hlegno),
      findTaskE_append_skip _ _ _ (allHaveId_phaseTasks _ (fun q hq => (hP1 q hq).1))
        (noMatch_phaseTasks _ _ (fun q hq => (hP1 q hq).2)),
      findTaskE_append_skip _ _ _ (allHaveId_map_stamp _ _ hT1id)
        (noMatch_map_stamp _ _ _ hT1no),
      findTaskE_cons_match _ _ _ (by rw [idMatches_stampTask]; exact ht)]
  have hpfget : aget (pyUpdate (stampTask pf t) u) "phase_file" = some (Val.str pf.name) := by
    rw [aget_pyUpdate_not_mem u _ _ (fun kv hm => (hns kv hm).2.2),
      aget_stampTask_phase_file]
  have hupd : updatePhaseFile ⟨leg, P1 ++ pf :: P2⟩ pf.name tid (savedRec pf t u)
      = some ⟨leg, P1 ++ updatedFile pf T1 t T2 u :: P2⟩ := by
    unfold updatePhaseFile
    rw [show (⟨leg, P1 ++ pf :: P2⟩ : FS).phases = P1 ++ pf :: P2 from rfl,
      find_phaseFile_by_name P1 pf P2 hno1]
    dsimp only
    rw [htasks, replaceInTasks_split tid _ T1 t T2 hT1id hT1no ht]
    rw [Option.map_some']
    rw [map_update_by_name P1 pf P2 _ hno1 hno2]
    rfl
  simp only [saveTaskUpdates, hfind, hpfget, truthy, hname, Bool.not_false, if_true]
  exact hupd

/-- C2 (amended): updating a phase-owned task through `save_task_updates`
rewrites only the owning phase file, replacing that task's record in place
by `savedRec` — the stored record with the load-time stamps merged in, the
update map folded over it, and the stamp keys stripped again — and leaves
every other record of that file untouched in its original order.  Reloading
yields the same merged collection with only that task's entry replaced, and
the replacement's fields are exactly the prior (stamped) fields shallowly
overwritten by the update map.  Amendment: the update map must not itself
touch the load-time stamp keys `phase`/`phase_name`/`phase_file` — for such
maps the written stamps are recomputed at reload and the claimed field
equality fails (see the counterexample). -/
theorem C2_save_roundtrip (leg : Option (List PyDict)) (P1 : List PhaseFile)
    (pf : PhaseFile) (P2 : List PhaseFile) (T1 : List PyDict) (t : PyDict)
    (T2 : List PyDict) (tid : String) (u : PyDict)
    (htasks : pf.tasks = T1 ++ t :: T2)
    (hsorted : (P1 ++ pf :: P2).Pairwise (fun a b => a.name ≤ b.name))
    (hno1 : ∀ q ∈ P1, q.name ≠ pf.name) (hno2 : ∀ q ∈ P2, q.name ≠ pf.name)
    (hlegid : allHaveId (leg.getD [])) (hlegno : noMatch tid (leg.getD []))
    (hP1 : ∀ q ∈ P1, allHaveId q.tasks ∧ noMatch tid q.tasks)
    (hT1id : allHaveId T1) (hT1no : noMatch tid T1)
    (ht : idMatches tid t = true)
    (hu : updatesNoStamps u)
    (hname : pf.name.isEmpty = false) :
    saveTaskUpdates ⟨leg, P1 ++ pf :: P2⟩ tid u
        = some ⟨leg, P1 ++ updatedFile pf T1 t T2 u :: P2⟩
      ∧ (∀ k, aget (stampTask pf (savedRec pf t u)) k
            = aget (pyUpdate (stampTask pf t) u) k)
      ∧ (loadTasks ⟨leg, P1 ++ updatedFile pf T1 t T2 u :: P2⟩).tasks
          = (loadTasks ⟨leg, P1 ++ pf :: P2⟩).tasks.set
              ((leg.getD []).length + ((phaseTasksOf P1).length + T1.length))
              (stampTask pf (savedRec pf t u)) := by
  have hns := noStamps_ne u hu
  have hA := saveTaskUpdates_phase_case leg P1 pf P2 T1 t T2 tid u htasks hsorted
    hno1 hno2 hlegid hlegno hP1 hT1id hT1no ht hu hname
  refine ⟨hA, ?_, ?_⟩
  · intro k
    unfold savedRec
    by_cases h1 : k = "phase"
    · subst h1
      rw [aget_stampTask_phase,
        aget_pyUpdate_not_mem u _ _ (fun kv hm => (hns kv hm).1),
        aget_stampTask_phase]
    · by_cases h2 : k = "phase_name"
      · subst h2
        rw [aget_stampTask_phase_name,
          aget_pyUpdate_not_mem u _ _ (fun kv hm => (hns kv hm).2.1),
          aget_stampTask_phase_name]
      · by_cases h3 : k = "phase_file"
        · subst h3
          rw [aget_stampTask_phase_file,
            aget_pyUpdate_not_mem u _ _ (fun kv hm => (hns kv hm).2.2),
            aget_stampTask_phase_file]
        · rw [aget_stampTask_ne _ _ _ h1 h2 h3,
            aget_stripKeys_not_mem _ _ _ (by simp [h1, h2, h3])]
  · have hsorted2 : (P1 ++ updatedFile pf T1 t T2 u :: P2).Pairwise
        (fun a b => a.name ≤ b.name) :=
      sorted_name_replace P1 pf P2 (T1 ++ savedRec pf t u :: T2) hsorted
    rw [loadTasks_tasks_eq, loadTasks_tasks_eq]
    show ((leg.getD []).map tagLegacy)
          ++ phaseTasksOf (sortPhases (P1 ++ updatedFile pf T1 t T2 u :: P2))
        = (((leg.getD []).map tagLegacy)
            ++ phaseTasksOf (sortPhases (P1 ++ pf :: P2))).set _ _
    rw [sortPhases_of_sorted _ hsorted, sortPhases_of_sorted _ hsorted2,
      phaseTasksOf_append, phaseTasksOf_cons, phaseTasksOf_append, phaseTasksOf_cons]
    rw [show (updatedFile pf T1 t T2 u).tasks = T1 ++ savedRec pf t u :: T2 from rfl,
      show stampTask (updatedFile pf T1 t T2 u) = stampTask pf from rfl]
    rw [htasks, List.map_append, List.map_cons, List.map_append, List.map_cons]
    simp only [List.append_assoc, List.cons_append]
    rw [show (leg.getD []).length = ((leg.getD []).map tagLegacy).length from
        (List.length_map _ _).symm,
      set_append_add]
    congr 1
    rw [set_append_add]
    congr 1
    rw [show T1.length = (T1.map (stampTask pf)).length from (List.length_map _ _).symm,
      show (T1.map (stampTask pf)).length = (T1.map (stampTask pf)).length + 0 from rfl,
      set_append_add]
    congr 1

/-- C2 counterexample: with the update map `\x7b"phase": 99\x7d` the claim as
stated fails.  Saving it against the phase-owned task strips the `phase` key
before writing, so the store is unchanged; reloading stamps the file's own
phase id 1 back on, while the prior fields shallowly overwritten by the
update map carry `phase = 99`. -/
theorem C2_save_roundtrip_counterexample :
    saveTaskUpdates wFs1 "t1" [("phase", Val.int 99)] = some wFs1
      ∧ aget (pyUpdate wStamped [("phase", Val.int 99)]) "phase" = some (Val.int 99)
      ∧ ((loadTasks wFs1).tasks.map (fun r => aget r "phase")) = [some (Val.int 1)] :=
  ⟨rfl, rfl, rfl⟩

/-- C2 witness: the round-trip theorem applied to a concrete store with one
legacy record and a one-task phase file, updating the status field. -/
theorem C2_save_roundtrip_witness :
    saveTaskUpdates ⟨some [wLegTask], [wPf1]⟩ "t1" [("status", Val.str "done")]
        = some ⟨some [wLegTask], [updatedFile wPf1 [] wTask1 [] [("status", Val.str "done")]]⟩ :=
  (C2_save_roundtrip (some [wLegTask]) [] wPf1 [] [] wTask1 [] "t1"
    [("status", Val.str "done")] rfl (by decide) (by simp) (by simp) (by decide)
    (by decide) (by simp) (by decide) (by decide) (by decide) (by decide) (by decide)).1

theorem saveTaskUpdates_legacy_case (phases : List PhaseFile) (L1 : List PyDict)
    (t : PyDict) (L2 : List PyDict) (tid : String) (u : PyDict)
    (hL1id : allHaveId L1) (hL1no : noMatch tid L1)
    (ht : idMatches tid t = true)
    (hu : updatesNoStamps u)
    (htr : truthy (aget t "phase_file") = false) :
    saveTaskUpdates ⟨some (L1 ++ t :: L2), phases⟩ tid u
        = some ⟨some (L1 ++ savedLegacyRec t u :: L2), phases⟩ := by
  have hns := noStamps_ne u hu
  have hfind : findTaskE tid (loadTasks ⟨some (L1 ++ t :: L2), phases⟩).tasks
      = some (some (tagLegacy t)) := by
    rw [loadTasks_tasks_eq]
    show findTaskE tid (((L1 ++ t :: L2).map tagLegacy)
        ++ phaseTasksOf (sortPhases phases)) = _
    rw [List.map_append, List.map_cons]
    simp only [List.append_assoc, List.cons_append]
    rw [findTaskE_append_skip _ _ _ (allHaveId_map_tagLegacy _ hL1id)
        (noMatch_map_tagLegacy _ _ hL1no),
      findTaskE_cons_match _ _ _ (by rw [idMatches_tagLegacy]; exact ht)]
  have hpfget : aget (pyUpdate (tagLegacy t) u) "phase_file" = aget t "phase_file" := by
    rw [aget_pyUpdate_not_mem u _ _ (fun kv hm => (hns kv hm).2.2),
      aget_tagLegacy_ne _ _ (by decide)]
  have hupd : updateLegacy ⟨some (L1 ++ t :: L2), phases⟩ tid (savedLegacyRec t u)
      = some ⟨some (L1 ++ savedLegacyRec t u :: L2), phases⟩ := by
    unfold updateLegacy
    dsimp only
    rw [replaceInTasks_split tid _ L1 t L2 hL1id hL1no ht, Option.map_some']
  simp only [saveTaskUpdates, hfind, hpfget, htr, Bool.false_eq_true, if_false]
  exact hupd

/-- C3 (amended): `save_task_updates` touches only the owning file.  For a
phase-owned task the record written back (`savedRec`) carries none of the
`phase`/`phase_name`/`phase_file` keys, and neither the legacy file nor any
other phase file changes.  For a legacy-owned task the record written back
(`savedLegacyRec`) carries no `phase_name`/`phase_file` key and no phase
file changes — but, contrary to the claim as stated, it always carries a
`phase` key: the stored record's explicit value when present, and otherwise
the 0 stamped on it at load time (see the counterexample).  Amendment: the
update map must not touch the stamp keys. -/
theorem C3_strip_stamps (tid : String) (u : PyDict) (hu : updatesNoStamps u) :
    (∀ (leg : Option (List PyDict)) (P1 : List PhaseFile) (pf : PhaseFile)
        (P2 : List PhaseFile) (T1 : List PyDict) (t : PyDict) (T2 : List PyDict),
        pf.tasks = T1 ++ t :: T2 →
        (P1 ++ pf :: P2).Pairwise (fun a b => a.name ≤ b.name) →
        (∀ q ∈ P1, q.name ≠ pf.name) → (∀ q ∈ P2, q.name ≠ pf.name) →
        allHaveId (leg.getD []) → noMatch tid (leg.getD []) →
        (∀ q ∈ P1, allHaveId q.tasks ∧ noMatch tid q.tasks) →
        allHaveId T1 → noMatch tid T1 → idMatches tid t = true →
        pf.name.isEmpty = false →
        saveTaskUpdates ⟨leg, P1 ++ pf :: P2⟩ tid u
            = some ⟨leg, P1 ++ updatedFile pf T1 t T2 u :: P2⟩
          ∧ hasKey (savedRec pf t u) "phase" = false
          ∧ hasKey (savedRec pf t u) "phase_name" = false
          ∧ hasKey (savedRec pf t u) "phase_file" = false)
      ∧ (∀ (phases : List PhaseFile) (L1 : List PyDict) (t : PyDict) (L2 : List PyDict),
        allHaveId L1 → noMatch tid L1 → idMatches tid t = true →
        truthy (aget t "phase_file") = false →
        saveTaskUpdates ⟨some (L1 ++ t :: L2), phases⟩ tid u
            = some ⟨some (L1 ++ savedLegacyRec t u :: L2), phases⟩
          ∧ hasKey (savedLegacyRec t u) "phase_name" = false
          ∧ hasKey (savedLegacyRec t u) "phase_file" = false
          ∧ aget (savedLegacyRec t u) "phase"
              = some ((aget t "phase").getD (Val.int 0))) := by
  constructor
  · intro leg P1 pf P2 T1 t T2 h1 h2 h3 h4 h5 h6 h7 h8 h9 h10 h11
    refine ⟨saveTaskUpdates_phase_case leg P1 pf P2 T1 t T2 tid u
        h1 h2 h3 h4 h5 h6 h7 h8 h9 h10 hu h11, ?_, ?_, ?_⟩
    · exact hasKey_stripKeys_mem _ _ _ (by simp)
    · exact hasKey_stripKeys_mem _ _ _ (by simp)
    · exact hasKey_stripKeys_mem _ _ _ (by simp)
  · intro phases L1 t L2 h1 h2 h3 h4
    refine ⟨saveTaskUpdates_legacy_case phases L1 t L2 tid u h1 h2 h3 hu h4,
        ?_, ?_, ?_⟩
    · exact hasKey_stripKeys_mem _ _ _ (by simp)
    · exact hasKey_stripKeys_mem _ _ _ (by simp)
    · unfold savedLegacyRec
      rw [aget_stripKeys_not_mem _ _ _ (by simp),
        aget_pyUpdate_not_mem u _ _ (fun kv hm => ((noStamps_ne u hu) kv hm).1),
        aget_tagLegacy_phase]

/-- C3 counterexample: saving an empty update map against a legacy record
stored without any `phase` tag writes the record back with `phase: 0` — the
load-time default is persisted, contradicting the claim that a phase tag is
kept only when the stored record had one explicitly. -/
theorem C3_strip_stamps_counterexample :
    saveTaskUpdates ⟨some [wLegTask], []⟩ "L" []
        = some ⟨some [[("id", Val.str "L"), ("description", Val.str "ld"),
            ("phase", Val.int 0)]], []⟩
      ∧ hasKey wLegTask "phase" = false :=
  ⟨rfl, rfl⟩

/-- C3 witness: the legacy half of the theorem applied to a concrete store,
showing the rewrite of the legacy file, the absence of the transient
`phase_name`/`phase_file` keys, and the persisted `phase: 0`. -/
theorem C3_strip_stamps_witness :
    saveTaskUpdates ⟨some [wLegTask], [wPf1]⟩ "L" [("status", Val.str "done")]
        = some ⟨some [savedLegacyRec wLegTask [("status", Val.str "done")]], [wPf1]⟩
      ∧ hasKey (savedLegacyRec wLegTask [("status", Val.str "done")]) "phase_name" = false
      ∧ hasKey (savedLegacyRec wLegTask [("status", Val.str "done")]) "phase_file" = false
      ∧ aget (savedLegacyRec wLegTask [("status", Val.str "done")]) "phase"
          = some ((aget wLegTask "phase").getD (Val.int 0)) :=
  (C3_strip_stamps "L" [("status", Val.str "done")] (by decide)).2 [wPf1] [] wLegTask []
    (by decide) (by decide) (by decide) (by decide)

theorem sumBy_setEntry (f : Prog → Int) (st : List (Val × Prog)) (k : Val) (e e0 : Prog)
    (h : getEntry st k = some e0) :
    ((setEntry st k e).map (fun ke => f ke.2)).sum
      = (st.map (fun ke => f ke.2)).sum - f e0 + f e := by
  induction st with
  | nil => simp [getEntry] at h
  | cons x r ih =>
    obtain ⟨k0, v0⟩ := x
    by_cases hk : keyEq k0 k = true
    · rw [show getEntry ((k0, v0) :: r) k = some v0 from by simp [getEntry, hk]] at h
      injection h with h
      subst h
      rw [show setEntry ((k0, v0) :: r) k e = (k0, e) :: r from by simp [setEntry, hk]]
      simp only [List.map_cons, List.sum_cons]
      ring
    · rw [show getEntry ((k0, v0) :: r) k = getEntry r k from by simp [getEntry, hk]] at h
      rw [show setEntry ((k0, v0) :: r) k e = (k0, v0) :: setEntry r k e from by
        simp [setEntry, hk]]
      simp only [List.map_cons, List.sum_cons, ih h]
      ring

theorem getEntry_append_of_none (st : List (Val × Prog)) (k : Val) (e : Prog)
    (hkk : keyEq k k = true) (h : getEntry st k = Option.none) :
    getEntry (st ++ [(k, e)]) k = some e := by
  induction st with
  | nil => simp [getEntry, hkk]
  | cons x r ih =>
    obtain ⟨k0, v0⟩ := x
    by_cases hk : keyEq k0 k = true
    · simp [getEntry, hk] at h
    · rw [show getEntry ((k0, v0) :: r) k = getEntry r k from by simp [getEntry, hk]] at h
      rw [List.cons_append,
        show getEntry ((k0, v0) :: (r ++ [(k, e)])) k = getEntry (r ++ [(k, e)]) k from by
          simp [getEntry, hk]]
      exact ih h

theorem sumBy_ensureEntry (f : Prog → Int) (hf : f (initEntry (Val.str "Legacy Tasks")) = 0)
    (st : List (Val × Prog)) (ph : Val) :
    ((ensureEntry st ph).map (fun ke => f ke.2)).sum = (st.map (fun ke => f ke.2)).sum := by
  unfold ensureEntry
  by_cases h : (getEntry st ph).isSome = true
  · rw [if_pos h]
  · rw [if_neg h]
    simp [hf]

theorem getEntry_ensureEntry (st : List (Val × Prog)) (ph : Val)
    (hkk : keyEq ph ph = true) : (getEntry (ensureEntry st ph) ph).isSome = true := by
  unfold ensureEntry
  by_cases h : (getEntry st ph).isSome = true
  · rw [if_pos h]
    exact h
  · rw [if_neg h]
    rcases hg : getEntry st ph with _ | e
    · rw [getEntry_append_of_none st ph _ hkk hg]
      rfl
    · rw [hg] at h
      simp at h

theorem entryStep_counts (status : Val) (e e1 : Prog)
    (hs : entryStep status e = some e1)
    (hnt : keyEq status (Val.str "total") = false) :
    e1.total = e.total + 1
      ∧ bucketsOf e1 = bucketsOf e + (if bucketStatusV status then 1 else 0) := by
  cases status with
  | list l => simp [entryStep] at hs
  | dict d => simp [entryStep] at hs
  | int n =>
    simp only [entryStep] at hs
    injection hs with hs
    subst hs
    simp [bucketsOf, bucketStatusV]
  | none =>
    simp only [entryStep] at hs
    injection hs with hs
    subst hs
    simp [bucketsOf, bucketStatusV]
  | str s =>
    have hnt2 : s ≠ "total" := by
      intro he
      subst he
      exact absurd hnt (by decide)
    by_cases h1 : s = "name"
    · subst h1
      rcases hn : e.name with s2 | n | l | d | _ <;> simp [entryStep, hn] at hs <;>
        subst hs <;> exact ⟨rfl, by simp [bucketsOf, bucketStatusV]⟩
    · by_cases h2 : s = "completed"
      · subst h2
        simp [entryStep] at hs
        subst hs
        refine ⟨rfl, ?_⟩
        simp only [bucketsOf, bucketStatusV]
        simp
        ring
      · by_cases h3 : s = "in_progress"
        · subst h3
          simp [entryStep] at hs
          subst hs
          refine ⟨rfl, ?_⟩
          simp only [bucketsOf, bucketStatusV]
          simp
          ring
        · by_cases h4 : s = "pending"
          · subst h4
            simp [entryStep] at hs
            subst hs
            refine ⟨rfl, ?_⟩
            simp only [bucketsOf, bucketStatusV]
            simp
            ring
          · by_cases h5 : s = "blocked"
            · subst h5
              simp [entryStep] at hs
              subst hs
              refine ⟨rfl, ?_⟩
              simp only [bucketsOf, bucketStatusV]
              simp
              ring
            · simp [entryStep, h1, hnt2, h2, h3, h4, h5] at hs
              subst hs
              refine ⟨rfl, ?_⟩
              simp [bucketsOf, bucketStatusV, h2, h3, h4, h5]

theorem keyEq_scalar_refl (v : Val) (h : (match v with
    | Val.list _ => False
    | Val.dict _ => False
    | _ => True)) : keyEq v v = true := by
  cases v with
  | str s => simp [keyEq]
  | int n => simp [keyEq]
  | none => rfl
  | list l => exact absurd h (by simp)
  | dict d => exact absurd h (by simp)

theorem stepTask_counts (st : List (Val × Prog)) (t : PyDict)
    (st1 : List (Val × Prog))
    (hs : stepTask st t = some st1)
    (hnt : keyEq (statusOf t) (Val.str "total") = false) :
    sumTotals st1 = sumTotals st + 1
      ∧ sumBuckets st1 = sumBuckets st + (if bucketStatusV (statusOf t) then 1 else 0) := by
  have main : ∀ ph : Val, keyEq ph ph = true →
      (match getEntry (ensureEntry st ph) ph with
        | some e => (entryStep (statusOf t) e).map (setEntry (ensureEntry st ph) ph)
        | Option.none => Option.none) = some st1 →
      sumTotals st1 = sumTotals st + 1
        ∧ sumBuckets st1 = sumBuckets st + (if bucketStatusV (statusOf t) then 1 else 0) := by
    intro ph hkk hs2
    rcases hg : getEntry (ensureEntry st ph) ph with _ | e
    · rw [hg] at hs2
      simp at hs2
    · rw [hg] at hs2
      dsimp only at hs2
      rcases hes : entryStep (statusOf t) e with _ | e1
      · rw [hes] at hs2
        simp at hs2
      · rw [hes] at hs2
        rw [Option.map_some'] at hs2
        injection hs2 with hs2
        subst hs2
        obtain ⟨hct, hcb⟩ := entryStep_counts (statusOf t) e e1 hes hnt
        have hsetT := sumBy_setEntry (fun e => e.total) (ensureEntry st ph) ph e1 e hg
        have hsetB := sumBy_setEntry bucketsOf (ensureEntry st ph) ph e1 e hg
        have hensT := sumBy_ensureEntry (fun e => e.total) (by simp [initEntry]) st ph
        have hensB := sumBy_ensureEntry bucketsOf (by simp [initEntry, bucketsOf]) st ph
        constructor
        · show sumTotals (setEntry (ensureEntry st ph) ph e1) = _
          unfold sumTotals
          rw [hsetT, hensT]
          dsimp only
          rw [hct]
          ring
        · show sumBuckets (setEntry (ensureEntry st ph) ph e1) = _
          unfold sumBuckets
          rw [hsetB, hensB, hcb]
          ring
  unfold stepTask at hs
  rcases hph : (aget t "phase").getD (Val.int 0) with s | n | l | d | _ <;> rw [hph] at hs
  · exact main (Val.str s) (by simp [keyEq]) hs
  · exact main (Val.int n) (by simp [keyEq]) hs
  · simp at hs
  · simp at hs
  · exact main Val.none rfl hs

theorem countTasks_sums (ts : List PyDict) : ∀ st st1 : List (Val × Prog),
    countTasks st ts = some st1 →
    (∀ t ∈ ts, keyEq (statusOf t) (Val.str "total") = false) →
    sumTotals st1 = sumTotals st + ts.length
      ∧ sumBuckets st1 = sumBuckets st
          + ((ts.filter (fun t => bucketStatusV (statusOf t))).length : Int) := by
  induction ts with
  | nil =>
    intro st st1 h _
    simp only [countTasks] at h
    injection h with h
    subst h
    simp
  | cons t ts ih =>
    intro st st1 h hnt
    simp only [countTasks] at h
    rcases hst : stepTask st t with _ | st2 <;> rw [hst] at h
    · simp at h
    · dsimp only at h
      obtain ⟨h1, h2⟩ := ih st2 st1 h (fun x hx => hnt x (List.mem_cons_of_mem _ hx))
      obtain ⟨g1, g2⟩ := stepTask_counts st t st2 hst (hnt t (List.mem_cons_self _ _))
      constructor
      · rw [h1, g1]
        simp only [List.length_cons]
        push_cast
        ring
      · rw [h2, g2]
        rw [List.filter_cons]
        by_cases hb : bucketStatusV (statusOf t) = true
        · rw [if_pos hb, if_pos hb]
          simp only [List.length_cons]
          push_cast
          ring
        · rw [if_neg hb, if_neg hb]
          ring

theorem sumTotals_initProgress (ms : List (Val × PMeta)) :
    sumTotals (initProgress ms) = 0 := by
  induction ms with
  | nil => rfl
  | cons m ms ih =>
    simp only [initProgress, List.map_cons, sumTotals, List.sum_cons] at ih ⊢
    rw [ih]
    simp [initEntry]

theorem sumBuckets_initProgress (ms : List (Val × PMeta)) :
    sumBuckets (initProgress ms) = 0 := by
  induction ms with
  | nil => rfl
  | cons m ms ih =>
    simp only [initProgress, List.map_cons, sumBuckets, List.sum_cons] at ih ⊢
    rw [ih]
    simp [initEntry, bucketsOf]

theorem sumTotals_pctPass (st : List (Val × Prog)) :
    sumTotals (pctPass st) = sumTotals st := by
  induction st with
  | nil => rfl
  | cons ke st ih =>
    simp only [pctPass, List.map_cons, sumTotals, List.sum_cons] at ih ⊢
    rw [ih]

theorem sumBuckets_pctPass (st : List (Val × Prog)) :
    sumBuckets (pctPass st) = sumBuckets st := by
  induction st with
  | nil => rfl
  | cons ke st ih =>
    simp only [pctPass, List.map_cons, sumBuckets, List.sum_cons] at ih ⊢
    rw [ih]
    simp only [bucketsOf]

/-- C6: the claim fails as stated — a task whose status is the literal
string `total` hits the bookkeeping key `total` of the progress dict and
increments it a second time, so the sum of per-phase totals exceeds the
merged collection's size (see the counterexample).  Amended: provided no
task carries the status string `total`, the sum of the `total` fields over
the returned map equals the number of tasks `load_tasks()` returns, and the
sum of all four status buckets equals the number of tasks whose status is
one of the bucket keys `completed`/`in_progress`/`pending`/`blocked` — so a
task with any other status value is counted toward its phase's total but
toward no status bucket. -/
theorem C6_totals (fs : FS) (m : List (Val × Prog))
    (hm : getPhaseProgress fs = some m)
    (hnt : (loadTasks fs).tasks.all
      (fun t => !(keyEq (statusOf t) (Val.str "total"))) = true) :
    sumTotals m = ((loadTasks fs).tasks.length : Int)
      ∧ sumBuckets m = (((loadTasks fs).tasks.filter
          (fun t => bucketStatusV (statusOf t))).length : Int) := by
  unfold getPhaseProgress at hm
  rcases hc : countTasks (initProgress (loadTasks fs).phases) (loadTasks fs).tasks
    with _ | st <;> rw [hc] at hm
  · simp at hm
  · rw [Option.map_some'] at hm
    injection hm with hm
    subst hm
    have hnt2 : ∀ t ∈ (loadTasks fs).tasks,
        keyEq (statusOf t) (Val.str "total") = false := by
      intro t ht
      have h := List.all_eq_true.mp hnt t ht
      simpa using h
    obtain ⟨h1, h2⟩ := countTasks_sums (loadTasks fs).tasks
      (initProgress (loadTasks fs).phases) st hc hnt2
    refine ⟨?_, ?_⟩
    · rw [sumTotals_pctPass, h1, sumTotals_initProgress, zero_add]
    · rw [sumBuckets_pctPass, h2, sumBuckets_initProgress, zero_add]

/-- C6 counterexample: a store whose single task has the status string
`total` yields a progress map whose `total` field is 2 while `load_tasks`
returns 1 task, so the sum of per-phase totals does not equal the collection
size. -/
theorem C6_totals_counterexample :
    getPhaseProgress wFsTotal
        = some [(Val.int 1, ⟨Val.str "A", 2, 0, 0, 0, 0, 0⟩)]
      ∧ (loadTasks wFsTotal).tasks.length = 1 := ⟨rfl, rfl⟩

/-- Witness for C6: on the one-pending-task store `wFs1` the amended claim
is discharged at a concrete input. -/
theorem C6_totals_witness :
    sumTotals [(Val.int 1, wProgPending)] = ((loadTasks wFs1).tasks.length : Int)
      ∧ sumBuckets [(Val.int 1, wProgPending)]
        = (((loadTasks wFs1).tasks.filter
            (fun t => bucketStatusV (statusOf t))).length : Int) :=
  C6_totals wFs1 [(Val.int 1, wProgPending)] rfl (by decide)

theorem mem_pctPass (st : List (Val × Prog)) (k : Val) (e : Prog)
    (h : (k, e) ∈ pctPass st) :
    e.percentage = if 0 < e.total then pyPctInt e.completed e.total else 0 := by
  induction st with
  | nil => simp [pctPass] at h
  | cons ke st ih =>
    simp only [pctPass, List.map_cons, List.mem_cons] at h
    rcases h with h | h
    · simp only [Prod.mk.injEq] at h
      obtain ⟨h1, h2⟩ := h
      subst h2
      rfl
    · exact ih (by simpa [pctPass] using h)

theorem pyPctInt_completed_zero (t : Int) : pyPctInt 0 t = 0 := by
  simp [pyPctInt]

theorem log2fuelN_self (f n : ℕ) (hn : 0 < n) : log2fuelN (f + 1) n n = 0 := by
  simp only [log2fuelN]
  rw [if_neg (Nat.lt_irrefl n), if_neg (by omega)]

theorem roundHalfEvenN_mul (c m : ℕ) (hc : 0 < c) :
    roundHalfEvenN (c * m) c = m := by
  unfold roundHalfEvenN
  rw [Nat.mul_div_cancel_left _ hc, Nat.mul_mod_right]
  simp [hc]

theorem roundNatFrac_self (c : ℕ) (hc : 0 < c) : roundNatFrac c c = (2 ^ 52, -52) := by
  unfold roundNatFrac
  rw [show log2fuelN 400 c c = 0 from log2fuelN_self 399 c hc]
  norm_num
  rw [show Int.toNat 52 = 52 from rfl, show (-52 : Int).toNat = 0 from rfl,
    pow_zero, Nat.mul_one, roundHalfEvenN_mul c (2 ^ 52) hc]
  norm_num

theorem pyPctInt_self (c : Int) (hc : 0 < c) : pyPctInt c c = 100 := by
  unfold pyPctInt
  rw [if_pos ⟨hc, hc⟩]
  rw [show roundNatFrac c.toNat c.toNat = (2 ^ 52, -52) from
    roundNatFrac_self c.toNat (by omega)]
  rfl

/-- C7: the claim fails as stated — the code computes
`int((completed / total) * 100)` through binary64 floats, which can
undershoot the exact floor (`completed = 29`, `total = 100` yields 28, see
the counterexample).  Amended: every entry of the returned map has
`percentage` equal to the binary64 evaluation of
`int((completed / total) * 100)` (a correctly rounded double division, a
correctly rounded product with 100, truncation toward zero) when
`total > 0`, and 0 when `total ≤ 0`; at the extremes the float value is
exact: `completed = 0` gives 0 and `completed = total > 0` gives 100. -/
theorem C7_percentage (fs : FS) (m : List (Val × Prog)) (k : Val) (e : Prog)
    (hm : getPhaseProgress fs = some m) (he : (k, e) ∈ m) :
    e.percentage = (if 0 < e.total then pyPctInt e.completed e.total else 0)
      ∧ (e.completed = 0 → e.percentage = 0)
      ∧ (0 < e.total → e.completed = e.total → e.percentage = 100) := by
  have hp : e.percentage = if 0 < e.total then pyPctInt e.completed e.total else 0 := by
    unfold getPhaseProgress at hm
    rcases hc : countTasks (initProgress (loadTasks fs).phases) (loadTasks fs).tasks
      with _ | st <;> rw [hc] at hm
    · simp at hm
    · rw [Option.map_some'] at hm
      injection hm with hm
      subst hm
      exact mem_pctPass st k e he
  refine ⟨hp, ?_, ?_⟩
  · intro h0
    rw [hp, h0]
    by_cases ht : 0 < e.total
    · rw [if_pos ht]
      exact pyPctInt_completed_zero e.total
    · rw [if_neg ht]
  · intro ht hce
    rw [hp, if_pos ht, hce]
    exact pyPctInt_self e.total ht

set_option maxRecDepth 100000 in
/-- C7 counterexample: on a phase with 29 completed of 100 tasks the code's
percentage is 28, while the exact `floor(completed * 100 / total)` the claim
asserts is 29: `float(29) / float(100)` rounds to a double just below
29/100, and multiplying by 100 and truncating loses the unit. -/
theorem C7_percentage_counterexample :
    (getPhaseProgress wFs29).map (fun m => m.map
        (fun p => (p.1, p.2.completed, p.2.total, p.2.percentage)))
      = some [(Val.int 1, 29, 100, 28)]
      ∧ (29 * 100) / (100 : Int) = 29 := ⟨rfl, rfl⟩

/-- Witness for C7: the amended claim discharged on the one-pending-task
store `wFs1` and its concrete progress entry. -/
theorem C7_percentage_witness :
    (wProgPending.percentage
        = if 0 < wProgPending.total
          then pyPctInt wProgPending.completed wProgPending.total else 0)
      ∧ (wProgPending.completed = 0 → wProgPending.percentage = 0)
      ∧ (0 < wProgPending.total → wProgPending.completed = wProgPending.total →
          wProgPending.percentage = 100) :=
  C7_percentage wFs1 [(Val.int 1, wProgPending)] (Val.int 1) wProgPending rfl
    (List.mem_singleton.mpr rfl)
